import Mathlib

/-
  Verification of the binned-SAH BVH builder (src/include/bvh/binned_sah_builder.hpp).

  Shallow embedding notes:
  * The C++ `Scalar` type (an IEEE floating-point type) is idealized as ℚ with exact
    arithmetic.  `std::numeric_limits<Scalar>::max()` is modelled by the constant
    `scalarMax`; `BoundingBox::empty()` is the sentinel box (+scalarMax, -scalarMax)
    exactly as in the library's bounding-box collaborator.
  * Arrays owned by the builder (`nodes`, `primitive_indices`) are modelled as total
    functions from ℕ, with the allocation counter `node_count` kept separately.
  * `size_t(x)` conversion of a scalar (defined by C++ only for x ≥ 0, where it
    truncates, i.e. takes the floor) is modelled by `sizeT`; theorems that depend on
    it carry the hypothesis that puts the argument in the defined-behavior region.
-/

namespace BVH

abbrev Scalar := ℚ

/-- Modelled from the spec: `std::numeric_limits<Scalar>::max()`, the largest finite
scalar, used by the bounding-box collaborator's `empty()` and by `find_split`'s
initial best cost.  Idealized as a fixed large rational. -/
def scalarMax : Scalar := (2 : ℚ) ^ 128

structure Vec3 where
  x : Scalar
  y : Scalar
  z : Scalar
  deriving DecidableEq, Repr

/-- Component access `v[axis]` for axis in {0,1,2} (source indexes vectors 0..2). -/
def Vec3.get (v : Vec3) : ℕ → Scalar
  | 0 => v.x
  | 1 => v.y
  | _ => v.z

/-- Modelled from the spec: componentwise minimum (bounding-box arithmetic collaborator). -/
def Vec3.cmin (a b : Vec3) : Vec3 := ⟨min a.x b.x, min a.y b.y, min a.z b.z⟩

/-- Modelled from the spec: componentwise maximum (bounding-box arithmetic collaborator). -/
def Vec3.cmax (a b : Vec3) : Vec3 := ⟨max a.x b.x, max a.y b.y, max a.z b.z⟩

/-- Modelled from the spec: componentwise subtraction (used for box diagonals). -/
def Vec3.sub3 (a b : Vec3) : Vec3 := ⟨a.x - b.x, a.y - b.y, a.z - b.z⟩

/-- Modelled from the spec: componentwise reciprocal, `Vector3::inverse()`; the spec's
`scale = BinCount / extent` (in ℚ, `1 / 0 = 0`). -/
def Vec3.inv3 (v : Vec3) : Vec3 := ⟨1 / v.x, 1 / v.y, 1 / v.z⟩

/-- Modelled from the spec: scaling a vector by a scalar. -/
def Vec3.smul3 (v : Vec3) (s : Scalar) : Vec3 := ⟨v.x * s, v.y * s, v.z * s⟩

/-- Modelled from the spec: componentwise negation. -/
def Vec3.neg3 (v : Vec3) : Vec3 := ⟨-v.x, -v.y, -v.z⟩

/-- Modelled from the spec: componentwise product of two vectors. -/
def Vec3.mul3 (a b : Vec3) : Vec3 := ⟨a.x * b.x, a.y * b.y, a.z * b.z⟩

/-- Componentwise order on vectors. -/
def Vec3.le3 (a b : Vec3) : Prop := a.x ≤ b.x ∧ a.y ≤ b.y ∧ a.z ≤ b.z

instance (a b : Vec3) : Decidable (a.le3 b) := by
  unfold Vec3.le3
  infer_instance

/-- Axis-aligned bounding box, `BoundingBox<Scalar>` of the collaborator header. -/
structure BBox where
  min : Vec3
  max : Vec3
  deriving DecidableEq, Repr

/-- Modelled from the spec: `BoundingBox::empty()`, the inverted sentinel box
`(+max_scalar, -max_scalar)` whose union with any real box is that box. -/
def BBox.empty0 : BBox :=
  ⟨⟨scalarMax, scalarMax, scalarMax⟩, ⟨-scalarMax, -scalarMax, -scalarMax⟩⟩

/-- Modelled from the spec: `BoundingBox::extend` with another box — the union,
computed as componentwise min/max. -/
def BBox.extend (a b : BBox) : BBox := ⟨a.min.cmin b.min, a.max.cmax b.max⟩

/-- Modelled from the spec: `BoundingBox::extend` with a point (used for the
centroid bounding box). -/
def BBox.extendP (a : BBox) (p : Vec3) : BBox := ⟨a.min.cmin p, a.max.cmax p⟩

/-- Modelled from the spec: `BoundingBox::diagonal()`. -/
def BBox.diagonal (b : BBox) : Vec3 := b.max.sub3 b.min

/-- Modelled from the spec: `BoundingBox::half_area()`, half the surface area
`dx*dy + dx*dz + dy*dz` of the box with diagonal `d`. -/
def BBox.half_area (b : BBox) : Scalar :=
  let d := b.diagonal
  d.x * d.y + d.x * d.z + d.y * d.z

/-- Modelled from the spec: `multiply_add(a, b, c) = a * b + c`. -/
def multiply_add (a b c : Scalar) : Scalar := a * b + c

/-- `size_t(x)` conversion of a scalar: truncation toward zero, which equals the
floor for `x ≥ 0` (the only region where C++ defines the conversion). -/
def sizeT (q : Scalar) : ℕ := ⌊q⌋.toNat

/-- Union of a list of boxes the way the source computes it: a left fold of
`extend` starting from the empty sentinel box. -/
def unionFold (l : List BBox) : BBox := l.foldl BBox.extend BBox.empty0

/-- The caller-supplied read-only inputs and the build configuration:
primitive bounding boxes, centroids (`bboxes`, `centers` in the source), the
`BinCount` template parameter, and the `max_depth` / `traversal_cost` settings
read from the Bvh object. -/
structure Input where
  bboxes : ℕ → BBox
  centers : ℕ → Vec3
  bin_count : ℕ
  max_depth : ℕ
  traversal_cost : Scalar

/-- `BinnedSahBuildTask::WorkItem`: a pending `(node_index, begin, end, depth)`. -/
structure WorkItem where
  node_index : ℕ
  begin_ : ℕ
  end_ : ℕ
  depth : ℕ
  deriving DecidableEq, Repr

/-- `WorkItem::work_size() = end - begin`. -/
def WorkItem.work_size (it : WorkItem) : ℕ := it.end_ - it.begin_

/-- A node of the Bvh being built: bounding box, leaf flag, first-child-or-first-
primitive index, and primitive count (the node layout consumed from the tree
scaffolding collaborator). -/
structure Node where
  bbox : BBox
  first_child_or_primitive : ℕ
  primitive_count : ℕ
  is_leaf : Bool
  deriving DecidableEq, Repr

/-- The mutable build state: the node array, the primitive-index array and the
node allocation counter (`bvh.nodes`, `bvh.primitive_indices`, `bvh.node_count`). -/
structure BvhState where
  nodes : ℕ → Node
  primitive_indices : ℕ → ℕ
  node_count : ℕ

/-- Write one node slot. -/
def BvhState.setNode (st : BvhState) (i : ℕ) (n : Node) : BvhState :=
  { st with nodes := fun j => if j = i then n else st.nodes j }

/-- The contiguous slice `f[b], f[b+1], ..., f[e-1]` of an array. -/
def rangeList (f : ℕ → ℕ) (b e : ℕ) : List ℕ := (List.range' b (e - b)).map f

/-- Overwrite the slice starting at `b` with the elements of `l`, leaving the
rest of the array unchanged. -/
def writeRange (f : ℕ → ℕ) (b : ℕ) (l : List ℕ) : ℕ → ℕ := fun k =>
  if b ≤ k ∧ k - b < l.length then l.getD (k - b) 0 else f k

/-- `make_leaf` of the source: point the node at the primitive range `[b, e)`
and flag it as a leaf; the node's bounding box is not touched. -/
def make_leaf (node : Node) (b e : ℕ) : Node :=
  { node with first_child_or_primitive := b, primitive_count := e - b, is_leaf := true }

/-- The per-node bin-index mapping (the `bin_index` lambda of
`BinnedSahBuildTask::build`): an affine transform of the centroid clamped above
to `bin_count - 1`, with `inverse = center_bbox.diagonal().inverse() * bin_count`
and `base = -center_bbox.min * inverse`. -/
def binIdxOf (inp : Input) (cb : BBox) (c : Vec3) (axis : ℕ) : ℕ :=
  let inverse := cb.diagonal.inv3.smul3 (inp.bin_count : Scalar)
  let base := cb.min.neg3.mul3 inverse
  min (sizeT (multiply_add (c.get axis) (inverse.get axis) (base.get axis))) (inp.bin_count - 1)

/-- The centroid bounding box of the primitives stored at positions `[b, e)`
of the primitive-index array (`center_bbox` in `BinnedSahBuildTask::build`). -/
def centerBBoxOf (inp : Input) (prim : ℕ → ℕ) (b e : ℕ) : BBox :=
  (rangeList prim b e).foldl (fun bb i => bb.extendP (inp.centers i)) BBox.empty0

/-- One iteration of the bin fill loop of `find_split`: the primitive at
position `i` is assigned to the bin given by the mapping of its centroid; that
bin's box is extended with the primitive's full bounding box and its count
incremented. -/
def binStep (inp : Input) (prim : ℕ → ℕ) (axis : ℕ) (binIdx : Vec3 → ℕ → ℕ)
    (bins : ℕ → BBox × ℕ) (i : ℕ) : ℕ → BBox × ℕ :=
  let pi := prim i
  let j := binIdx (inp.centers pi) axis
  fun k => if k = j then ((bins j).1.extend (inp.bboxes pi), (bins j).2 + 1) else bins k

/-- The bin fill loop of `find_split` over the positions `[b, e)`, starting
from all-empty bins. -/
def binsFor (inp : Input) (prim : ℕ → ℕ) (axis b e : ℕ) (binIdx : Vec3 → ℕ → ℕ) :
    ℕ → BBox × ℕ :=
  (List.range' b (e - b)).foldl (binStep inp prim axis binIdx) (fun _ => (BBox.empty0, 0))

/-- One iteration of the right sweep of `find_split` at bin `i`: extend the
running union box and count and store this bin's right cost
`half_area(running box) * running count`. -/
def rightStep (bins : ℕ → BBox × ℕ) (acc : BBox × ℕ × (ℕ → Scalar)) (i : ℕ) :
    BBox × ℕ × (ℕ → Scalar) :=
  let bb := acc.1.extend (bins i).1
  let cnt := acc.2.1 + (bins i).2
  (bb, cnt, fun k => if k = i then bb.half_area * (cnt : Scalar) else acc.2.2 k)

/-- The right sweep of `find_split`: iterate bins from `bin_count - 1` down to 1,
accumulating a running union box and count, and store at each bin the cost of
treating everything from that bin rightward as one half. -/
def rightCosts (inp : Input) (bins : ℕ → BBox × ℕ) : ℕ → Scalar :=
  (((List.range' 1 (inp.bin_count - 1)).reverse).foldl (rightStep bins)
    (BBox.empty0, 0, fun _ => 0)).2.2

/-- One iteration of the left sweep of `find_split` at bin `i`: extend the
running left union box and count, form the total candidate cost at boundary
`i + 1` using the cached right cost, and keep the strictly smaller best. -/
def sweepStep (bins : ℕ → BBox × ℕ) (rc : ℕ → Scalar)
    (acc : (Scalar × ℕ) × BBox × ℕ) (i : ℕ) : (Scalar × ℕ) × BBox × ℕ :=
  let bb := acc.2.1.extend (bins i).1
  let cnt := acc.2.2 + (bins i).2
  let cost := bb.half_area * (cnt : Scalar) + rc (i + 1)
  (if cost < acc.1.1 then (cost, i + 1) else acc.1, bb, cnt)

/-- `BinnedSahBuildTask::find_split`: fill the bins for one axis, sweep right to
cache partial costs, then sweep left tracking the minimum total cost and its
boundary; starts from the sentinel `(scalarMax, bin_count)` and updates on a
strictly-smaller cost. -/
def find_split (inp : Input) (prim : ℕ → ℕ) (axis b e : ℕ) (binIdx : Vec3 → ℕ → ℕ) :
    Scalar × ℕ :=
  let bins := binsFor inp prim axis b e binIdx
  let rc := rightCosts inp bins
  ((List.range (inp.bin_count - 1)).foldl (sweepStep bins rc)
    ((scalarMax, inp.bin_count), BBox.empty0, 0)).1

/-- The axis selection of `BinnedSahBuildTask::build`:
`best_axis = 0`; `if s0.cost > s1.cost, best_axis = 1`;
`if s[best_axis].cost > s2.cost, best_axis = 2`. -/
def bestAxis (s0 s1 s2 : Scalar × ℕ) : ℕ :=
  let a1 : ℕ := if s0.1 > s1.1 then 1 else 0
  if (if s0.1 > s1.1 then s1 else s0).1 > s2.1 then 2 else a1

/-- The split evaluation of one axis inside `build`: `find_split` run over the
item's range with the per-node bin-index mapping. -/
def splitOn (inp : Input) (prim : ℕ → ℕ) (it : WorkItem) (axis : ℕ) : Scalar × ℕ :=
  find_split inp prim axis it.begin_ it.end_
    (binIdxOf inp (centerBBoxOf inp prim it.begin_ it.end_))

/-- `best_axis` for a work item. -/
def chosenAxis (inp : Input) (prim : ℕ → ℕ) (it : WorkItem) : ℕ :=
  bestAxis (splitOn inp prim it 0) (splitOn inp prim it 1) (splitOn inp prim it 2)

/-- `best_splits[best_axis]` for a work item. -/
def chosenPair (inp : Input) (prim : ℕ → ℕ) (it : WorkItem) : Scalar × ℕ :=
  splitOn inp prim it (chosenAxis inp prim it)

/-- The predicate of the `std::partition` call in `build`: the primitive's bin
index on the winning axis — computed with the same `bin_index` mapping passed to
`find_split` — is below the chosen boundary. -/
def partPred (inp : Input) (prim : ℕ → ℕ) (it : WorkItem) (i : ℕ) : Bool :=
  decide (binIdxOf inp (centerBBoxOf inp prim it.begin_ it.end_) (inp.centers i)
      (chosenAxis inp prim it) < (chosenPair inp prim it).2)

/-- The contents of the slice `[begin, end)` after `std::partition`: the
primitives satisfying the predicate, then the ones that do not. -/
def partList (inp : Input) (prim : ℕ → ℕ) (it : WorkItem) : List ℕ :=
  (rangeList prim it.begin_ it.end_).filter (partPred inp prim it) ++
    (rangeList prim it.begin_ it.end_).filter (fun i => ! partPred inp prim it i)

/-- The primitive-index array after the partition step. -/
def partPrim (inp : Input) (prim : ℕ → ℕ) (it : WorkItem) : ℕ → ℕ :=
  writeRange prim it.begin_ (partList inp prim it)

/-- `begin_right`, the crossover position returned by `std::partition`. -/
def beginRightOf (inp : Input) (prim : ℕ → ℕ) (it : WorkItem) : ℕ :=
  it.begin_ + ((rangeList prim it.begin_ it.end_).filter (partPred inp prim it)).length

/-- The left child's bounding box at a split: the union of the bin boxes on the
winning axis strictly below the boundary (`left_bbox` in the source). -/
def leftChildBox (inp : Input) (prim : ℕ → ℕ) (it : WorkItem) : BBox :=
  let bins := binsFor inp prim (chosenAxis inp prim it) it.begin_ it.end_
    (binIdxOf inp (centerBBoxOf inp prim it.begin_ it.end_))
  (List.range (chosenPair inp prim it).2).foldl (fun bb i => bb.extend (bins i).1) BBox.empty0

/-- The right child's bounding box at a split: the union of the bin boxes from
the boundary up (`right_bbox` in the source). -/
def rightChildBox (inp : Input) (prim : ℕ → ℕ) (it : WorkItem) : BBox :=
  let bins := binsFor inp prim (chosenAxis inp prim it) it.begin_ it.end_
    (binIdxOf inp (centerBBoxOf inp prim it.begin_ it.end_))
  (List.range' (chosenPair inp prim it).2 (inp.bin_count - (chosenPair inp prim it).2)).foldl
    (fun bb i => bb.extend (bins i).1) BBox.empty0

/-- The state produced by the `make_leaf` calls of `build`: the processed node
is overwritten with a leaf over the item's range; nothing else changes. -/
def leafResult (st : BvhState) (item : WorkItem) : BvhState :=
  st.setNode item.node_index (make_leaf (st.nodes item.node_index) item.begin_ item.end_)

/-- The state after the `std::partition` call: only the primitive-index slice
`[begin, end)` of the array changes. -/
def partitionedState (inp : Input) (st : BvhState) (item : WorkItem) : BvhState :=
  { st with primitive_indices := partPrim inp st.primitive_indices item }

/-- The state produced by the split branch of `build`: the primitive slice is
partitioned, two fresh child slots `node_count` and `node_count + 1` receive the
two half-unions of the bin boxes as bounding boxes, the processed node becomes
internal pointing at the first child, and the allocation counter advances by 2. -/
def splitResult (inp : Input) (st : BvhState) (item : WorkItem) : BvhState :=
  let li := st.node_count
  let internalized := st.setNode item.node_index
    { st.nodes item.node_index with
        first_child_or_primitive := li, primitive_count := 0, is_leaf := false }
  let withLeft := internalized.setNode li
    { internalized.nodes li with bbox := leftChildBox inp st.primitive_indices item }
  let withRight := withLeft.setNode (li + 1)
    { withLeft.nodes (li + 1) with bbox := rightChildBox inp st.primitive_indices item }
  { withRight with
      primitive_indices := partPrim inp st.primitive_indices item, node_count := li + 2 }

/-- `BinnedSahBuildTask::build`, one invocation on a work item.  Returns the new
state and either `none` (the node became a leaf) or the two child work items.
Steps in source order: forced-leaf check; per-axis `find_split` and axis choice;
leaf-vs-split cost comparison; `std::partition`; empty-side guard; child slot
allocation (`node_count += 2`), parent/children field writes. -/
def buildStep (inp : Input) (st : BvhState) (item : WorkItem) :
    BvhState × Option (WorkItem × WorkItem) :=
  if item.work_size ≤ 1 ∨ inp.max_depth ≤ item.depth then
    (leafResult st item, none)
  else if (chosenPair inp st.primitive_indices item).2 = inp.bin_count ∨
      (st.nodes item.node_index).bbox.half_area *
        ((item.work_size : Scalar) - inp.traversal_cost)
        ≤ (chosenPair inp st.primitive_indices item).1 then
    (leafResult st item, none)
  else if item.begin_ < beginRightOf inp st.primitive_indices item ∧
      beginRightOf inp st.primitive_indices item < item.end_ then
    (splitResult inp st item,
      some (⟨st.node_count, item.begin_, beginRightOf inp st.primitive_indices item,
          item.depth + 1⟩,
        ⟨st.node_count + 1, beginRightOf inp st.primitive_indices item, item.end_,
          item.depth + 1⟩))
  else
    (leafResult (partitionedState inp st item) item, none)

/-- Fuel that suffices to drain a work list (each processed item strictly
decreases this measure, see `loopFuel_decreases`). -/
def loopFuel (items : List WorkItem) : ℕ :=
  (items.map fun it => 4 * it.work_size - 2 + 1).sum

/-- Modelled from the spec: the external top-down scheduling engine
(`TopDownBuilder::run`, in `top_down_builder.hpp`, which is not under src/)
"repeatedly invokes the Recursive Build Task until no more splits are produced";
modelled as a sequential work-list loop.  The fuel argument is only a structural
recursion bound; `loopFuel` fuel always suffices (`buildLoopF_total`). -/
def buildLoopF (inp : Input) : ℕ → BvhState → List WorkItem → Option BvhState
  | _, st, [] => some st
  | 0, _, _ :: _ => none
  | fuel + 1, st, item :: rest =>
    match buildStep inp st item with
    | (st1, none) => buildLoopF inp fuel st1 rest
    | (st1, some (a, b)) => buildLoopF inp fuel st1 (a :: b :: rest)

/-- The root bounding box computed by `BinnedSahBuilder::build`: the union of
all primitive bounding boxes (an associative-commutative reduction, modelled in
index order). -/
def rootBoxOf (inp : Input) (n : ℕ) : BBox := unionFold ((List.range n).map inp.bboxes)

/-- The state set up by `BinnedSahBuilder::build` before the first task runs:
freshly allocated arrays (`ninit`, `pinit` model their indeterminate initial
contents), the primitive-index array initialized to the identity on `[0, n)`,
the root bounding box written to node 0, and `node_count = 1`. -/
def initState (inp : Input) (n : ℕ) (ninit : ℕ → Node) (pinit : ℕ → ℕ) : BvhState :=
  { nodes := fun j => if j = 0 then { ninit 0 with bbox := rootBoxOf inp n } else ninit j
    primitive_indices := fun i => if i < n then i else pinit i
    node_count := 1 }

/-- The root work item `(0, 0, n, 0)` handed to the scheduler. -/
def rootItem (n : ℕ) : WorkItem := ⟨0, 0, n, 0⟩

/-- `BinnedSahBuilder::build` over `n` primitives: initialize, then drain the
work list starting from the root item. -/
def buildBvh (inp : Input) (n : ℕ) (ninit : ℕ → Node) (pinit : ℕ → ℕ) : Option BvhState :=
  buildLoopF inp (loopFuel [rootItem n]) (initState inp n ninit pinit) [rootItem n]

/-! ### Containment predicates and extension algebra -/
/-- Box `A` contains box `B`: componentwise `A.min ≤ B.min` and `B.max ≤ A.max`. -/
def contains (A B : BBox) : Prop := A.min.le3 B.min ∧ B.max.le3 A.max

instance (A B : BBox) : Decidable (contains A B) := by
  unfold contains
  infer_instance

/-- A box is well formed for the sentinel arithmetic when its coordinates lie in
`[-scalarMax, scalarMax]`; equivalently it contains the empty sentinel box.
Every finite float box satisfies this, including the sentinel itself. -/
def WFB (b : BBox) : Prop := contains b BBox.empty0

instance (b : BBox) : Decidable (WFB b) := by
  unfold WFB
  infer_instance

instance : RightCommutative BBox.extend :=
  ⟨fun b a1 a2 => by
    simp only [BBox.extend, Vec3.cmin, Vec3.cmax, min_assoc, min_comm, min_left_comm,
      max_assoc, max_comm, max_left_comm]⟩

/-! ### The emitted child work items -/
/-- The left child work item emitted by a split. -/
def leftItemOf (inp : Input) (st : BvhState) (item : WorkItem) : WorkItem :=
  ⟨st.node_count, item.begin_, beginRightOf inp st.primitive_indices item, item.depth + 1⟩

/-- The right child work item emitted by a split. -/
def rightItemOf (inp : Input) (st : BvhState) (item : WorkItem) : WorkItem :=
  ⟨st.node_count + 1, beginRightOf inp st.primitive_indices item, item.end_, item.depth + 1⟩

/-! ### The SAH split cost and the `find_split` sweeps -/
/-- Union of the bin boxes with indices in `[lo, lo + len)`. -/
def binBoxUnion (bins : ℕ → BBox × ℕ) (lo len : ℕ) : BBox :=
  unionFold ((List.range' lo len).map fun i => (bins i).1)

/-- Total primitive count of the bins with indices in `[lo, lo + len)`. -/
def binCountSum (bins : ℕ → BBox × ℕ) (lo len : ℕ) : ℕ :=
  ((List.range' lo len).map fun i => (bins i).2).sum

/-- The SAH cost of splitting the filled bins at boundary `bd`:
`half_area(union of bin boxes [0, bd)) * count[0, bd)`
`+ half_area(union of bin boxes [bd, BinCount)) * count[bd, BinCount)`. -/
def specSplitCost (inp : Input) (bins : ℕ → BBox × ℕ) (bd : ℕ) : Scalar :=
  (binBoxUnion bins 0 bd).half_area * (binCountSum bins 0 bd : Scalar)
    + (binBoxUnion bins bd (inp.bin_count - bd)).half_area
      * (binCountSum bins bd (inp.bin_count - bd) : Scalar)

/-- The union of the bin boxes `[lo, lo + len)` accumulated from `B` in the
downward order of the right sweep. -/
def downBox (bins : ℕ → BBox × ℕ) (B : BBox) (lo len : ℕ) : BBox :=
  ((List.range' lo len).reverse).foldl (fun bb i => bb.extend (bins i).1) B

/-! ### Left sweep characterization -/
/-- What the left sweep's best pair looks like after `k` candidate boundaries:
either still the sentinel (and no candidate cost beat `scalarMax`), or the
strictly-first minimizer among boundaries `1 .. k`. -/
def bestChar (inp : Input) (bins : ℕ → BBox × ℕ) (k : ℕ) (best : Scalar × ℕ) : Prop :=
  (best = (scalarMax, inp.bin_count)
      ∧ ∀ bd, 1 ≤ bd → bd ≤ k → scalarMax ≤ specSplitCost inp bins bd)
  ∨ (1 ≤ best.2 ∧ best.2 ≤ k ∧ best.1 = specSplitCost inp bins best.2
      ∧ best.1 < scalarMax
      ∧ (∀ bd, 1 ≤ bd → bd ≤ k → best.1 ≤ specSplitCost inp bins bd)
      ∧ ∀ bd, 1 ≤ bd → bd < best.2 → best.1 < specSplitCost inp bins bd)

/-- Modelled from the spec's words, for comparison with the source's `bin_index`
lambda: `clamp(floor(centroid * scale + offset), 0, BinCount - 1)` with
`scale = BinCount / extent` and `offset = -min * scale`. -/
def specBinIndex (inp : Input) (cb : BBox) (c : Vec3) (axis : ℕ) : ℕ :=
  let scale := (inp.bin_count : Scalar) / (cb.max.get axis - cb.min.get axis)
  let offset := -(cb.min.get axis) * scale
  (min (max (⌊c.get axis * scale + offset⌋) 0) ((inp.bin_count : ℤ) - 1)).toNat

/-! ### The build invariant -/
/-- Node indices with a pending work item. -/
def pendingIdx (items : List WorkItem) : List ℕ := items.map (fun it => it.node_index)

/-- Two work items cover disjoint ranges of the primitive-index array. -/
def rangesDisjoint (x y : WorkItem) : Prop := x.end_ ≤ y.begin_ ∨ y.end_ ≤ x.begin_

/-- A node no work item points at anymore is settled: either a finished leaf
whose box contains its primitives' boxes, whose range stays untouched by all
pending work, and which is non-empty unless it is the whole (empty) root range;
or a finished internal node whose box contains both children's boxes. -/
def SettledNode (inp : Input) (N : ℕ) (st : BvhState) (items : List WorkItem) (i : ℕ) :
    Prop :=
  ((st.nodes i).is_leaf = true
    ∧ (st.nodes i).first_child_or_primitive + (st.nodes i).primitive_count ≤ N
    ∧ (1 ≤ (st.nodes i).primitive_count
        ∨ ((st.nodes i).first_child_or_primitive = 0 ∧ (st.nodes i).primitive_count = N))
    ∧ (∀ k, (st.nodes i).first_child_or_primitive ≤ k →
        k < (st.nodes i).first_child_or_primitive + (st.nodes i).primitive_count →
        contains ((st.nodes i).bbox) (inp.bboxes (st.primitive_indices k)))
    ∧ (∀ it ∈ items, it.end_ ≤ (st.nodes i).first_child_or_primitive
        ∨ (st.nodes i).first_child_or_primitive + (st.nodes i).primitive_count
            ≤ it.begin_))
  ∨ ((st.nodes i).is_leaf = false
    ∧ (st.nodes i).primitive_count = 0
    ∧ (st.nodes i).first_child_or_primitive + 1 < st.node_count
    ∧ contains ((st.nodes i).bbox)
        ((st.nodes ((st.nodes i).first_child_or_primitive)).bbox)
    ∧ contains ((st.nodes i).bbox)
        ((st.nodes ((st.nodes i).first_child_or_primitive + 1)).bbox))

/-- The invariant relating a build state and its pending work list. -/
structure Inv (inp : Input) (N : ℕ) (st : BvhState) (items : List WorkItem) : Prop where
  hwf : ∀ i, i < st.node_count → WFB ((st.nodes i).bbox)
  hval : ∀ k, k < N → st.primitive_indices k < N
  pend_lt : ∀ it ∈ items, it.node_index < st.node_count
  pend_rng : ∀ it ∈ items, it.begin_ ≤ it.end_ ∧ it.end_ ≤ N
  pend_box : ∀ it ∈ items, ∀ k, it.begin_ ≤ k → k < it.end_ →
    contains ((st.nodes it.node_index).bbox) (inp.bboxes (st.primitive_indices k))
  pend_pos : ∀ it ∈ items, 1 ≤ it.work_size ∨ (it.begin_ = 0 ∧ it.end_ = N)
  pend_nodup : (pendingIdx items).Nodup
  pend_disj : items.Pairwise rangesDisjoint
  settled : ∀ i, i < st.node_count → i ∉ pendingIdx items → SettledNode inp N st items i

/-! ### Concrete instances for evaluation -/
/-- A node slot holding the box `[0,100]^3`. -/
def nodeC2 : Node := ⟨⟨⟨0,0,0⟩,⟨100,100,100⟩⟩, 0, 0, false⟩

/-- Two primitives with identical unit-cube boxes and identical centroids, two
bins, depth limit 8, zero traversal cost. -/
def inpC2 : Input :=
  { bboxes := fun _ => ⟨⟨0,0,0⟩,⟨1,1,1⟩⟩, centers := fun _ => ⟨1/2,1/2,1/2⟩,
    bin_count := 2, max_depth := 8, traversal_cost := 0 }

/-- One allocated node with a large bounding box over the identity permutation. -/
def stC2 : BvhState :=
  { nodes := fun _ => nodeC2, primitive_indices := fun i => i, node_count := 1 }

/-- The root work item over two primitives. -/
def itC2 : WorkItem := ⟨0, 0, 2, 0⟩

/-- Two primitives with separated point boxes and centroids at the opposite
corners of the unit cube. -/
def inpW3 : Input :=
  { bboxes := fun i => if i = 0 then ⟨⟨0,0,0⟩,⟨0,0,0⟩⟩ else ⟨⟨1,1,1⟩,⟨1,1,1⟩⟩,
    centers := fun i => if i = 0 then ⟨0,0,0⟩ else ⟨1,1,1⟩,
    bin_count := 2, max_depth := 8, traversal_cost := 0 }

/-- One allocated node with the unit-cube box over the identity permutation. -/
def stW3 : BvhState :=
  { nodes := fun _ => ⟨⟨⟨0,0,0⟩,⟨1,1,1⟩⟩, 0, 0, false⟩,
    primitive_indices := fun i => i, node_count := 1 }

/-- The root work item over the two separated primitives. -/
def itW3 : WorkItem := ⟨0, 0, 2, 0⟩

/-- Indeterminate fresh-array contents fed to concrete whole builds. -/
def ndefW : ℕ → Node := fun _ => nodeC2

/-- Indeterminate fresh primitive-array contents fed to concrete whole builds. -/
def pdefW : ℕ → ℕ := fun i => i

/-! ### Basic bounding-box lemmas -/

theorem Vec3.le3_refl (a : Vec3) : a.le3 a := ⟨le_refl _, le_refl _, le_refl _⟩

theorem Vec3.le3_trans {a b c : Vec3} (h1 : a.le3 b) (h2 : b.le3 c) : a.le3 c :=
  ⟨h1.1.trans h2.1, h1.2.1.trans h2.2.1, h1.2.2.trans h2.2.2⟩

theorem contains_refl (a : BBox) : contains a a := ⟨Vec3.le3_refl _, Vec3.le3_refl _⟩

theorem contains_trans {a b c : BBox} (h1 : contains a b) (h2 : contains b c) :
    contains a c := ⟨Vec3.le3_trans h1.1 h2.1, Vec3.le3_trans h2.2 h1.2⟩

theorem extend_contains_left (a b : BBox) : contains (a.extend b) a :=
  ⟨⟨min_le_left _ _, min_le_left _ _, min_le_left _ _⟩,
    ⟨le_max_left _ _, le_max_left _ _, le_max_left _ _⟩⟩

theorem extend_contains_right (a b : BBox) : contains (a.extend b) b :=
  ⟨⟨min_le_right _ _, min_le_right _ _, min_le_right _ _⟩,
    ⟨le_max_right _ _, le_max_right _ _, le_max_right _ _⟩⟩

theorem contains_extend {U a b : BBox} (h1 : contains U a) (h2 : contains U b) :
    contains U (a.extend b) :=
  ⟨⟨le_min h1.1.1 h2.1.1, le_min h1.1.2.1 h2.1.2.1, le_min h1.1.2.2 h2.1.2.2⟩,
    ⟨max_le h1.2.1 h2.2.1, max_le h1.2.2.1 h2.2.2.1, max_le h1.2.2.2 h2.2.2.2⟩⟩

theorem extend_assoc (a b c : BBox) : (a.extend b).extend c = a.extend (b.extend c) := by
  simp only [BBox.extend, Vec3.cmin, Vec3.cmax, min_assoc, max_assoc]

theorem extend_comm (a b : BBox) : a.extend b = b.extend a := by
  simp only [BBox.extend, Vec3.cmin, Vec3.cmax, min_comm a.min.x, min_comm a.min.y,
    min_comm a.min.z, max_comm a.max.x, max_comm a.max.y, max_comm a.max.z]

theorem extend_self (a : BBox) : a.extend a = a := by
  simp only [BBox.extend, Vec3.cmin, Vec3.cmax, min_self, max_self]

theorem extend_empty0 {b : BBox} (h : WFB b) : BBox.empty0.extend b = b := by
  have h1 : b.min.x ≤ scalarMax := h.1.1
  have h2 : b.min.y ≤ scalarMax := h.1.2.1
  have h3 : b.min.z ≤ scalarMax := h.1.2.2
  have h4 : -scalarMax ≤ b.max.x := h.2.1
  have h5 : -scalarMax ≤ b.max.y := h.2.2.1
  have h6 : -scalarMax ≤ b.max.z := h.2.2.2
  obtain ⟨⟨ax, ay, az⟩, bx, bb, bz⟩ := b
  simp only [BBox.extend, BBox.empty0, Vec3.cmin, Vec3.cmax, BBox.mk.injEq,
    Vec3.mk.injEq] at *
  exact ⟨⟨min_eq_right h1, min_eq_right h2, min_eq_right h3⟩,
    max_eq_right h4, max_eq_right h5, max_eq_right h6⟩

theorem WFB_empty0 : WFB BBox.empty0 := contains_refl _

theorem WFB_extend_left {a : BBox} (b : BBox) (h : WFB a) : WFB (a.extend b) :=
  contains_trans (extend_contains_left a b) h

theorem foldl_extend_contains_init (l : List BBox) (B : BBox) :
    contains (l.foldl BBox.extend B) B := by
  induction l generalizing B with
  | nil => exact contains_refl _
  | cons a t ih =>
    exact contains_trans (ih (B.extend a)) (extend_contains_left B a)

theorem foldl_extend_contains_mem {l : List BBox} {x : BBox} (hx : x ∈ l) (B : BBox) :
    contains (l.foldl BBox.extend B) x := by
  induction l generalizing B with
  | nil => cases hx
  | cons a t ih =>
    rcases List.mem_cons.mp hx with h | h
    · subst h
      exact contains_trans (foldl_extend_contains_init t (B.extend x))
        (extend_contains_right B x)
    · exact ih h (B.extend a)

theorem contains_foldl_extend {U B : BBox} {l : List BBox} (hB : contains U B)
    (hl : ∀ x ∈ l, contains U x) : contains U (l.foldl BBox.extend B) := by
  induction l generalizing B with
  | nil => exact hB
  | cons a t ih =>
    exact ih (contains_extend hB (hl a (List.mem_cons_self a t)))
      (fun x hx => hl x (List.mem_cons_of_mem a hx))

theorem WFB_foldl_extend {B : BBox} (l : List BBox) (h : WFB B) :
    WFB (l.foldl BBox.extend B) :=
  contains_trans (foldl_extend_contains_init l B) h

theorem WFB_unionFold (l : List BBox) : WFB (unionFold l) :=
  WFB_foldl_extend l WFB_empty0

theorem contains_unionFold {U : BBox} {l : List BBox} (hU : WFB U)
    (hl : ∀ x ∈ l, contains U x) : contains U (unionFold l) :=
  contains_foldl_extend hU hl

theorem foldl_extend_perm {l1 l2 : List BBox} (h : l1.Perm l2) (B : BBox) :
    l1.foldl BBox.extend B = l2.foldl BBox.extend B :=
  h.foldl_eq B

/-! ### Array-slice lemmas -/
theorem rangeList_length (f : ℕ → ℕ) (b e : ℕ) : (rangeList f b e).length = e - b := by
  simp [rangeList]

theorem mem_rangeList {f : ℕ → ℕ} {b e v : ℕ} :
    v ∈ rangeList f b e ↔ ∃ k, b ≤ k ∧ k < e ∧ v = f k := by
  simp only [rangeList, List.mem_map, List.mem_range'_1]
  constructor
  · rintro ⟨k, ⟨hk1, hk2⟩, rfl⟩
    exact ⟨k, hk1, by omega, rfl⟩
  · rintro ⟨k, hk1, hk2, rfl⟩
    exact ⟨k, ⟨hk1, by omega⟩, rfl⟩

theorem rangeList_congr {f g : ℕ → ℕ} {b e : ℕ}
    (h : ∀ k, b ≤ k → k < e → f k = g k) : rangeList f b e = rangeList g b e := by
  refine List.map_congr_left fun k hk => ?_
  rw [List.mem_range'_1] at hk
  exact h k hk.1 (by omega)

theorem rangeList_split {f : ℕ → ℕ} {b m e : ℕ} (h1 : b ≤ m) (h2 : m ≤ e) :
    rangeList f b e = rangeList f b m ++ rangeList f m e := by
  unfold rangeList
  rw [← List.map_append]
  congr 1
  have h3 := List.range'_append b (m - b) (e - m) 1
  simp only [one_mul, Nat.mul_one] at h3
  rw [show b + (m - b) = m by omega] at h3
  rw [h3]
  congr 1
  omega

theorem writeRange_out {f : ℕ → ℕ} {b k : ℕ} {l : List ℕ}
    (h : k < b ∨ b + l.length ≤ k) : writeRange f b l k = f k := by
  unfold writeRange
  rw [if_neg]
  omega

theorem writeRange_in {f : ℕ → ℕ} {b k : ℕ} {l : List ℕ} (h1 : b ≤ k)
    (h2 : k - b < l.length) : writeRange f b l k = l.getD (k - b) 0 := by
  unfold writeRange
  rw [if_pos ⟨h1, h2⟩]

theorem getD_map_range' (l : List ℕ) : ∀ b : ℕ,
    (List.range' b l.length).map (fun k => l.getD (k - b) 0) = l := by
  induction l with
  | nil => intro b; rfl
  | cons a t ih =>
    intro b
    have hr : List.range' b (t.length + 1) = b :: List.range' (b + 1) t.length :=
      List.range'_succ b t.length 1
    simp only [List.length_cons, hr, List.map_cons, Nat.sub_self, List.getD_cons_zero]
    congr 1
    calc List.map (fun k => (a :: t).getD (k - b) 0) (List.range' (b + 1) t.length)
        = List.map (fun k => t.getD (k - (b + 1)) 0) (List.range' (b + 1) t.length) := by
          refine List.map_congr_left fun k hk => ?_
          rw [List.mem_range'_1] at hk
          have h2 : k - b = (k - (b + 1)) + 1 := by omega
          rw [h2, List.getD_cons_succ]
      _ = t := ih (b + 1)

theorem rangeList_writeRange (f : ℕ → ℕ) (b : ℕ) (l : List ℕ) :
    rangeList (writeRange f b l) b (b + l.length) = l := by
  unfold rangeList
  rw [show b + l.length - b = l.length by omega]
  rw [show List.map (writeRange f b l) (List.range' b l.length)
      = List.map (fun k => l.getD (k - b) 0) (List.range' b l.length) from ?_]
  · exact getD_map_range' l b
  · refine List.map_congr_left fun k hk => ?_
    rw [List.mem_range'_1] at hk
    exact writeRange_in hk.1 (by omega)

theorem partList_perm (inp : Input) (prim : ℕ → ℕ) (it : WorkItem) :
    (partList inp prim it).Perm (rangeList prim it.begin_ it.end_) :=
  List.filter_append_perm _ _

theorem partList_length (inp : Input) (prim : ℕ → ℕ) (it : WorkItem) :
    (partList inp prim it).length = it.end_ - it.begin_ := by
  rw [(partList_perm inp prim it).length_eq, rangeList_length]

theorem partPrim_out {inp : Input} {prim : ℕ → ℕ} {it : WorkItem} {k : ℕ}
    (hbe : it.begin_ ≤ it.end_) (h : k < it.begin_ ∨ it.end_ ≤ k) :
    partPrim inp prim it k = prim k := by
  unfold partPrim
  refine writeRange_out ?_
  rw [partList_length]
  omega

theorem partPrim_rangeList {inp : Input} {prim : ℕ → ℕ} {it : WorkItem}
    (hbe : it.begin_ ≤ it.end_) :
    rangeList (partPrim inp prim it) it.begin_ it.end_ = partList inp prim it := by
  unfold partPrim
  have h := rangeList_writeRange prim it.begin_ (partList inp prim it)
  rw [partList_length] at h
  rw [show it.begin_ + (it.end_ - it.begin_) = it.end_ by omega] at h
  exact h

theorem partPrim_perm {inp : Input} {prim : ℕ → ℕ} {it : WorkItem}
    (hbe : it.begin_ ≤ it.end_) :
    (rangeList (partPrim inp prim it) it.begin_ it.end_).Perm
      (rangeList prim it.begin_ it.end_) := by
  rw [partPrim_rangeList hbe]
  exact partList_perm inp prim it

theorem buildStep_forced {inp : Input} {st : BvhState} {item : WorkItem}
    (h : item.work_size ≤ 1 ∨ inp.max_depth ≤ item.depth) :
    buildStep inp st item = (leafResult st item, none) := by
  unfold buildStep
  rw [if_pos h]

theorem buildStep_costLeaf {inp : Input} {st : BvhState} {item : WorkItem}
    (h1 : ¬ (item.work_size ≤ 1 ∨ inp.max_depth ≤ item.depth))
    (h2 : (chosenPair inp st.primitive_indices item).2 = inp.bin_count ∨
      (st.nodes item.node_index).bbox.half_area *
        ((item.work_size : Scalar) - inp.traversal_cost)
        ≤ (chosenPair inp st.primitive_indices item).1) :
    buildStep inp st item = (leafResult st item, none) := by
  unfold buildStep
  rw [if_neg h1, if_pos h2]

theorem buildStep_split {inp : Input} {st : BvhState} {item : WorkItem}
    (h1 : ¬ (item.work_size ≤ 1 ∨ inp.max_depth ≤ item.depth))
    (h2 : ¬ ((chosenPair inp st.primitive_indices item).2 = inp.bin_count ∨
      (st.nodes item.node_index).bbox.half_area *
        ((item.work_size : Scalar) - inp.traversal_cost)
        ≤ (chosenPair inp st.primitive_indices item).1))
    (h3 : item.begin_ < beginRightOf inp st.primitive_indices item ∧
      beginRightOf inp st.primitive_indices item < item.end_) :
    buildStep inp st item
      = (splitResult inp st item, some (leftItemOf inp st item, rightItemOf inp st item)) := by
  unfold buildStep
  rw [if_neg h1, if_neg h2, if_pos h3]
  rfl

theorem buildStep_guardLeaf {inp : Input} {st : BvhState} {item : WorkItem}
    (h1 : ¬ (item.work_size ≤ 1 ∨ inp.max_depth ≤ item.depth))
    (h2 : ¬ ((chosenPair inp st.primitive_indices item).2 = inp.bin_count ∨
      (st.nodes item.node_index).bbox.half_area *
        ((item.work_size : Scalar) - inp.traversal_cost)
        ≤ (chosenPair inp st.primitive_indices item).1))
    (h3 : ¬ (item.begin_ < beginRightOf inp st.primitive_indices item ∧
      beginRightOf inp st.primitive_indices item < item.end_)) :
    buildStep inp st item = (leafResult (partitionedState inp st item) item, none) := by
  unfold buildStep
  rw [if_neg h1, if_neg h2, if_neg h3]

/-- Every invocation of `buildStep` lands in exactly one of three result shapes:
leaf without partition, leaf after a partition whose guard failed, or a split. -/
theorem buildStep_shape (inp : Input) (st : BvhState) (item : WorkItem) :
    buildStep inp st item = (leafResult st item, none) ∨
    (2 ≤ item.work_size ∧
      buildStep inp st item = (leafResult (partitionedState inp st item) item, none)) ∨
    (2 ≤ item.work_size ∧
      buildStep inp st item
        = (splitResult inp st item, some (leftItemOf inp st item, rightItemOf inp st item))) := by
  by_cases h1 : item.work_size ≤ 1 ∨ inp.max_depth ≤ item.depth
  · exact Or.inl (buildStep_forced h1)
  · have hws : 2 ≤ item.work_size := by
      push_neg at h1
      omega
    by_cases h2 : (chosenPair inp st.primitive_indices item).2 = inp.bin_count ∨
        (st.nodes item.node_index).bbox.half_area *
          ((item.work_size : Scalar) - inp.traversal_cost)
          ≤ (chosenPair inp st.primitive_indices item).1
    · exact Or.inl (buildStep_costLeaf h1 h2)
    · by_cases h3 : item.begin_ < beginRightOf inp st.primitive_indices item ∧
          beginRightOf inp st.primitive_indices item < item.end_
      · exact Or.inr (Or.inr ⟨hws, buildStep_split h1 h2 h3⟩)
      · exact Or.inr (Or.inl ⟨hws, buildStep_guardLeaf h1 h2 h3⟩)

/-- Inverting a split: all the branch conditions that had to hold, and the exact
shape of the state and the two emitted work items. -/
theorem buildStep_some_inv {inp : Input} {st : BvhState} {item : WorkItem}
    {st2 : BvhState} {a b : WorkItem}
    (h : buildStep inp st item = (st2, some (a, b))) :
    2 ≤ item.work_size ∧ item.depth < inp.max_depth ∧
    (chosenPair inp st.primitive_indices item).2 ≠ inp.bin_count ∧
    (chosenPair inp st.primitive_indices item).1 <
      (st.nodes item.node_index).bbox.half_area *
        ((item.work_size : Scalar) - inp.traversal_cost) ∧
    item.begin_ < beginRightOf inp st.primitive_indices item ∧
    beginRightOf inp st.primitive_indices item < item.end_ ∧
    a = leftItemOf inp st item ∧ b = rightItemOf inp st item ∧
    st2 = splitResult inp st item := by
  by_cases h1 : item.work_size ≤ 1 ∨ inp.max_depth ≤ item.depth
  · rw [buildStep_forced h1] at h
    simp at h
  · by_cases h2 : (chosenPair inp st.primitive_indices item).2 = inp.bin_count ∨
        (st.nodes item.node_index).bbox.half_area *
          ((item.work_size : Scalar) - inp.traversal_cost)
          ≤ (chosenPair inp st.primitive_indices item).1
    · rw [buildStep_costLeaf h1 h2] at h
      simp at h
    · by_cases h3 : item.begin_ < beginRightOf inp st.primitive_indices item ∧
          beginRightOf inp st.primitive_indices item < item.end_
      · rw [buildStep_split h1 h2 h3] at h
        injection h with h4 h5
        injection h5 with h5
        injection h5 with h6 h7
        push_neg at h1 h2
        exact ⟨by omega, h1.2, h2.1, h2.2, h3.1, h3.2, h6.symm, h7.symm, h4.symm⟩
      · rw [buildStep_guardLeaf h1 h2 h3] at h
        simp at h

/-! ### Access and frame lemmas for the step results -/
theorem ws_iff (it : WorkItem) : 2 ≤ it.work_size ↔ it.begin_ + 2 ≤ it.end_ := by
  unfold WorkItem.work_size
  omega

theorem leafResult_nodes_self (st : BvhState) (item : WorkItem) :
    (leafResult st item).nodes item.node_index
      = make_leaf (st.nodes item.node_index) item.begin_ item.end_ := by
  simp [leafResult, BvhState.setNode]

theorem leafResult_nodes_other (st : BvhState) (item : WorkItem) {j : ℕ}
    (hj : j ≠ item.node_index) : (leafResult st item).nodes j = st.nodes j := by
  simp [leafResult, BvhState.setNode, hj]

theorem leafResult_prim (st : BvhState) (item : WorkItem) :
    (leafResult st item).primitive_indices = st.primitive_indices := rfl

theorem leafResult_nc (st : BvhState) (item : WorkItem) :
    (leafResult st item).node_count = st.node_count := rfl

theorem splitResult_nc (inp : Input) (st : BvhState) (item : WorkItem) :
    (splitResult inp st item).node_count = st.node_count + 2 := rfl

theorem splitResult_prim (inp : Input) (st : BvhState) (item : WorkItem) :
    (splitResult inp st item).primitive_indices = partPrim inp st.primitive_indices item := rfl

theorem splitResult_nodes_other (inp : Input) (st : BvhState) (item : WorkItem) {j : ℕ}
    (hj1 : j ≠ item.node_index) (hj2 : j ≠ st.node_count) (hj3 : j ≠ st.node_count + 1) :
    (splitResult inp st item).nodes j = st.nodes j := by
  simp [splitResult, BvhState.setNode, hj1, hj2, hj3]

theorem splitResult_nodes_parent (inp : Input) (st : BvhState) (item : WorkItem)
    (h1 : item.node_index ≠ st.node_count) (h2 : item.node_index ≠ st.node_count + 1) :
    (splitResult inp st item).nodes item.node_index
      = { st.nodes item.node_index with
          first_child_or_primitive := st.node_count, primitive_count := 0,
          is_leaf := false } := by
  simp [splitResult, BvhState.setNode, h1, h2]

theorem splitResult_left_bbox (inp : Input) (st : BvhState) (item : WorkItem) :
    ((splitResult inp st item).nodes st.node_count).bbox
      = leftChildBox inp st.primitive_indices item := by
  simp [splitResult, BvhState.setNode]

theorem splitResult_right_bbox (inp : Input) (st : BvhState) (item : WorkItem) :
    ((splitResult inp st item).nodes (st.node_count + 1)).bbox
      = rightChildBox inp st.primitive_indices item := by
  simp [splitResult, BvhState.setNode]

theorem splitResult_parent_bbox (inp : Input) (st : BvhState) (item : WorkItem)
    (h1 : item.node_index ≠ st.node_count) (h2 : item.node_index ≠ st.node_count + 1) :
    ((splitResult inp st item).nodes item.node_index).bbox
      = (st.nodes item.node_index).bbox := by
  rw [splitResult_nodes_parent inp st item h1 h2]

theorem partitionedState_nodes (inp : Input) (st : BvhState) (item : WorkItem) :
    (partitionedState inp st item).nodes = st.nodes := rfl

theorem partitionedState_nc (inp : Input) (st : BvhState) (item : WorkItem) :
    (partitionedState inp st item).node_count = st.node_count := rfl

/-- Any step leaves every node other than the processed one and the two freshly
allocated slots untouched. -/
theorem buildStep_nodes_frame {inp : Input} {st : BvhState} {item : WorkItem} {j : ℕ}
    (hj1 : j ≠ item.node_index) (hj2 : j ≠ st.node_count) (hj3 : j ≠ st.node_count + 1) :
    ((buildStep inp st item).1).nodes j = st.nodes j := by
  rcases buildStep_shape inp st item with h | ⟨_, h⟩ | ⟨_, h⟩ <;> rw [h]
  · exact leafResult_nodes_other st item hj1
  · exact leafResult_nodes_other (partitionedState inp st item) item hj1
  · exact splitResult_nodes_other inp st item hj1 hj2 hj3

/-- Any step leaves the bounding box of every node other than the two freshly
allocated slots untouched (`make_leaf` and the internal-node write do not touch
the box of the processed node). -/
theorem buildStep_bbox_frame {inp : Input} {st : BvhState} {item : WorkItem} {j : ℕ}
    (hj2 : j ≠ st.node_count) (hj3 : j ≠ st.node_count + 1) :
    (((buildStep inp st item).1).nodes j).bbox = (st.nodes j).bbox := by
  by_cases hj1 : j = item.node_index
  · subst hj1
    rcases buildStep_shape inp st item with h | ⟨_, h⟩ | ⟨_, h⟩ <;> rw [h]
    · rw [leafResult_nodes_self]
      rfl
    · rw [leafResult_nodes_self]
      rfl
    · rw [splitResult_parent_bbox inp st item hj2 hj3]
  · rw [buildStep_nodes_frame hj1 hj2 hj3]

/-- Any step leaves the primitive-index array outside `[begin, end)` untouched. -/
theorem buildStep_prim_frame {inp : Input} {st : BvhState} {item : WorkItem} {k : ℕ}
    (hk : k < item.begin_ ∨ item.end_ ≤ k) :
    ((buildStep inp st item).1).primitive_indices k = st.primitive_indices k := by
  rcases buildStep_shape inp st item with h | ⟨hws, h⟩ | ⟨hws, h⟩ <;> rw [h]
  · rfl
  · exact partPrim_out (by rw [ws_iff] at hws; omega) hk
  · exact partPrim_out (by rw [ws_iff] at hws; omega) hk

/-- Any step permutes the primitive-index slice `[begin, end)` in place. -/
theorem buildStep_prim_perm (inp : Input) (st : BvhState) (item : WorkItem) :
    (rangeList ((buildStep inp st item).1).primitive_indices item.begin_ item.end_).Perm
      (rangeList st.primitive_indices item.begin_ item.end_) := by
  rcases buildStep_shape inp st item with h | ⟨hws, h⟩ | ⟨hws, h⟩ <;> rw [h]
  · exact List.Perm.refl _
  · exact partPrim_perm (by rw [ws_iff] at hws; omega)
  · exact partPrim_perm (by rw [ws_iff] at hws; omega)

theorem buildStep_none_nc {inp : Input} {st : BvhState} {item : WorkItem}
    (h : (buildStep inp st item).2 = none) :
    ((buildStep inp st item).1).node_count = st.node_count := by
  rcases buildStep_shape inp st item with h2 | ⟨_, h2⟩ | ⟨_, h2⟩ <;> rw [h2]
  · rfl
  · rfl
  · rw [h2] at h
    simp at h

/-! ### Fuel sufficiency: the scheduler loop terminates -/
theorem loopFuel_cons (it : WorkItem) (rest : List WorkItem) :
    loopFuel (it :: rest) = (4 * it.work_size - 2 + 1) + loopFuel rest := by
  simp [loopFuel]

/-- `loopFuel items` steps of fuel always suffice to drain the work list: each
leaf removes an item (measure drop ≥ 1) and each split replaces an item of size
`s ≥ 2` by two items of sizes `s1, s2 ≥ 1` with `s1 + s2 = s` (measure drop 1). -/
theorem buildLoopF_total (inp : Input) : ∀ (fuel : ℕ) (st : BvhState)
    (items : List WorkItem), loopFuel items ≤ fuel →
    (buildLoopF inp fuel st items).isSome = true := by
  intro fuel
  induction fuel with
  | zero =>
    intro st items h
    cases items with
    | nil => simp [buildLoopF]
    | cons item rest =>
      rw [loopFuel_cons] at h
      omega
  | succ n ih =>
    intro st items h
    cases items with
    | nil => simp [buildLoopF]
    | cons item rest =>
      rcases hbs : buildStep inp st item with ⟨st1, res⟩
      cases res with
      | none =>
        have hred : buildLoopF inp (n + 1) st (item :: rest) = buildLoopF inp n st1 rest := by
          simp only [buildLoopF]
          rw [hbs]
        rw [hred]
        apply ih
        rw [loopFuel_cons] at h
        omega
      | some ab =>
        rcases ab with ⟨a, b⟩
        have hred : buildLoopF inp (n + 1) st (item :: rest)
            = buildLoopF inp n st1 (a :: b :: rest) := by
          simp only [buildLoopF]
          rw [hbs]
        rw [hred]
        apply ih
        obtain ⟨hws, _, _, _, h5, h6, ha, hb, _⟩ := buildStep_some_inv hbs
        subst ha
        subst hb
        simp only [loopFuel_cons] at h ⊢
        have e1 : (leftItemOf inp st item).work_size
            = beginRightOf inp st.primitive_indices item - item.begin_ := rfl
        have e2 : (rightItemOf inp st item).work_size
            = item.end_ - beginRightOf inp st.primitive_indices item := rfl
        have e3 : item.work_size = item.end_ - item.begin_ := rfl
        rw [e1, e2]
        rw [e3] at h
        omega

theorem range'_succ_right (s n : ℕ) : List.range' s (n + 1) = List.range' s n ++ [s + n] := by
  have h := List.range'_1_concat s n
  simpa using h

theorem range'_reverse_succ (s n : ℕ) :
    (List.range' s (n + 1)).reverse = (s + n) :: (List.range' s n).reverse := by
  rw [range'_succ_right]
  simp

theorem binCountSum_zero (bins : ℕ → BBox × ℕ) (lo : ℕ) : binCountSum bins lo 0 = 0 := rfl

theorem binCountSum_succ (bins : ℕ → BBox × ℕ) (lo n : ℕ) :
    binCountSum bins lo (n + 1) = binCountSum bins lo n + (bins (lo + n)).2 := by
  unfold binCountSum
  rw [range'_succ_right]
  simp

theorem binCountSum_one (bins : ℕ → BBox × ℕ) (lo : ℕ) :
    binCountSum bins lo 1 = (bins lo).2 := by
  simp [binCountSum]

theorem downBox_succ (bins : ℕ → BBox × ℕ) (B : BBox) (lo n : ℕ) :
    downBox bins B lo (n + 1) = downBox bins (B.extend (bins (lo + n)).1) lo n := by
  unfold downBox
  rw [range'_reverse_succ]
  rfl

theorem downBox_one (bins : ℕ → BBox × ℕ) (B : BBox) (lo : ℕ) :
    downBox bins B lo 1 = B.extend (bins lo).1 := by
  simp [downBox]

theorem foldl_extend_comp_perm {g : ℕ → BBox} {l1 l2 : List ℕ} (h : l1.Perm l2) (B : BBox) :
    l1.foldl (fun bb i => bb.extend (g i)) B = l2.foldl (fun bb i => bb.extend (g i)) B := by
  rw [← List.foldl_map g BBox.extend l1 B, ← List.foldl_map g BBox.extend l2 B]
  exact foldl_extend_perm (h.map g) B

theorem downBox_eq_union (bins : ℕ → BBox × ℕ) (lo len : ℕ) :
    downBox bins BBox.empty0 lo len = binBoxUnion bins lo len := by
  unfold downBox binBoxUnion unionFold
  rw [List.foldl_map]
  exact foldl_extend_comp_perm (List.reverse_perm _) _

/-- Characterization of the right sweep: after processing bins
`[s + n - 1, ..., s]` downward from accumulator `(B, C, f)`, the running count
is `C` plus the bins' total, and the cost stored at bin `m ∈ [s, s + n)` is the
half-area of the union of bins `[m, s + n)` (onto `B`) times the count from `m`
up (plus `C`). -/
theorem rightSweepAux (bins : ℕ → BBox × ℕ) (s : ℕ) : ∀ (n : ℕ) (B : BBox) (C : ℕ)
    (f : ℕ → Scalar),
    (((List.range' s n).reverse).foldl (rightStep bins) (B, C, f)).2.1
        = C + binCountSum bins s n
    ∧ ∀ m, (((List.range' s n).reverse).foldl (rightStep bins) (B, C, f)).2.2 m
        = if s ≤ m ∧ m < s + n
          then (downBox bins B m (s + n - m)).half_area
            * ((C + binCountSum bins m (s + n - m) : ℕ) : Scalar)
          else f m := by
  intro n
  induction n with
  | zero =>
    intro B C f
    constructor
    · simp [binCountSum]
    · intro m
      rw [if_neg (by omega)]
      rfl
  | succ n ih =>
    intro B C f
    rw [range'_reverse_succ, List.foldl_cons]
    have hstep : rightStep bins (B, C, f) (s + n)
        = (B.extend (bins (s + n)).1, C + (bins (s + n)).2,
          fun k => if k = s + n
            then (B.extend (bins (s + n)).1).half_area
              * ((C + (bins (s + n)).2 : ℕ) : Scalar)
            else f k) := rfl
    rw [hstep]
    obtain ⟨ihc, ihf⟩ := ih (B.extend (bins (s + n)).1) (C + (bins (s + n)).2)
      (fun k => if k = s + n
        then (B.extend (bins (s + n)).1).half_area * ((C + (bins (s + n)).2 : ℕ) : Scalar)
        else f k)
    constructor
    · rw [ihc, binCountSum_succ]
      omega
    · intro m
      rw [ihf m]
      by_cases h1 : s ≤ m ∧ m < s + n
      · rw [if_pos h1, if_pos (by omega)]
        have hb : downBox bins B m (s + (n + 1) - m)
            = downBox bins (B.extend (bins (s + n)).1) m (s + n - m) := by
          rw [show s + (n + 1) - m = (s + n - m) + 1 by omega, downBox_succ,
            show m + (s + n - m) = s + n by omega]
        rw [hb]
        congr 2
        rw [show s + (n + 1) - m = (s + n - m) + 1 by omega, binCountSum_succ,
          show m + (s + n - m) = s + n by omega]
        omega
      · by_cases h2 : m = s + n
        · subst h2
          rw [if_neg h1, if_pos rfl, if_pos (by omega)]
          rw [show s + (n + 1) - (s + n) = 1 by omega, downBox_one, binCountSum_one]
        · rw [if_neg h1, if_neg h2, if_neg (by omega)]

/-- The value the right sweep stores at bin `m` is exactly the spec's right-half
cost: half-area of the union of bins `[m, bin_count)` times their total count. -/
theorem rightCosts_eq (inp : Input) (bins : ℕ → BBox × ℕ) {m : ℕ} (hm1 : 1 ≤ m)
    (hm2 : m < inp.bin_count) :
    rightCosts inp bins m
      = (binBoxUnion bins m (inp.bin_count - m)).half_area
        * ((binCountSum bins m (inp.bin_count - m) : ℕ) : Scalar) := by
  unfold rightCosts
  obtain ⟨_, hf⟩ := rightSweepAux bins 1 (inp.bin_count - 1) BBox.empty0 0 (fun _ => 0)
  rw [hf m, if_pos ⟨hm1, by omega⟩,
    show 1 + (inp.bin_count - 1) - m = inp.bin_count - m by omega, downBox_eq_union]
  norm_num

/-! ### Bin fill characterization -/
theorem unionFold_concat (l : List BBox) (x : BBox) :
    unionFold (l ++ [x]) = (unionFold l).extend x := by
  simp [unionFold, List.foldl_append]

theorem binBoxUnion_zero (bins : ℕ → BBox × ℕ) (lo : ℕ) :
    binBoxUnion bins lo 0 = BBox.empty0 := rfl

theorem binBoxUnion_succ (bins : ℕ → BBox × ℕ) (lo n : ℕ) :
    binBoxUnion bins lo (n + 1) = (binBoxUnion bins lo n).extend (bins (lo + n)).1 := by
  unfold binBoxUnion
  rw [range'_succ_right, List.map_append]
  exact unionFold_concat _ _

/-- Folding the bin fill loop over any position list: each bin accumulates
exactly the primitives whose mapped bin index is that bin — the box is the
union (onto the initial box) of their full bounding boxes, the count goes up by
how many there are. -/
theorem binsFold_char (inp : Input) (prim : ℕ → ℕ) (axis : ℕ) (binIdx : Vec3 → ℕ → ℕ) :
    ∀ (l : List ℕ) (bins0 : ℕ → BBox × ℕ) (j : ℕ),
    ((l.foldl (binStep inp prim axis binIdx) bins0) j).1
        = ((l.filter (fun i => binIdx (inp.centers (prim i)) axis == j)).map
            (fun i => inp.bboxes (prim i))).foldl BBox.extend (bins0 j).1
    ∧ ((l.foldl (binStep inp prim axis binIdx) bins0) j).2
        = (bins0 j).2 + (l.filter (fun i => binIdx (inp.centers (prim i)) axis == j)).length := by
  intro l
  induction l with
  | nil =>
    intro bins0 j
    exact ⟨rfl, rfl⟩
  | cons a t ih =>
    intro bins0 j
    rw [List.foldl_cons]
    obtain ⟨ihb, ihc⟩ := ih (binStep inp prim axis binIdx bins0 a) j
    by_cases hj : binIdx (inp.centers (prim a)) axis = j
    · have hfil : (a :: t).filter (fun i => binIdx (inp.centers (prim i)) axis == j)
          = a :: t.filter (fun i => binIdx (inp.centers (prim i)) axis == j) := by
        simp [List.filter_cons, hj]
      have hbs : binStep inp prim axis binIdx bins0 a j
          = ((bins0 j).1.extend (inp.bboxes (prim a)), (bins0 j).2 + 1) := by
        show (if j = binIdx (inp.centers (prim a)) axis
            then ((bins0 (binIdx (inp.centers (prim a)) axis)).1.extend (inp.bboxes (prim a)),
              (bins0 (binIdx (inp.centers (prim a)) axis)).2 + 1)
            else bins0 j) = _
        rw [if_pos hj.symm, hj]
      rw [hfil]
      refine ⟨?_, ?_⟩
      · rw [ihb, hbs]
        simp only [List.map_cons, List.foldl_cons]
      · rw [ihc, hbs]
        simp only [List.length_cons]
        omega
    · have hfil : (a :: t).filter (fun i => binIdx (inp.centers (prim i)) axis == j)
          = t.filter (fun i => binIdx (inp.centers (prim i)) axis == j) := by
        simp [List.filter_cons, hj]
      have hbs : binStep inp prim axis binIdx bins0 a j = bins0 j := by
        show (if j = binIdx (inp.centers (prim a)) axis
            then ((bins0 (binIdx (inp.centers (prim a)) axis)).1.extend (inp.bboxes (prim a)),
              (bins0 (binIdx (inp.centers (prim a)) axis)).2 + 1)
            else bins0 j) = _
        rw [if_neg (fun hh => hj hh.symm)]
      rw [hfil]
      exact ⟨by rw [ihb, hbs], by rw [ihc, hbs]⟩

/-- The filled bins of `find_split`: bin `j` holds exactly the primitives of
the range whose mapped centroid lands in bin `j`. -/
theorem binsFor_char (inp : Input) (prim : ℕ → ℕ) (axis b e : ℕ)
    (binIdx : Vec3 → ℕ → ℕ) (j : ℕ) :
    (binsFor inp prim axis b e binIdx j).1
        = unionFold ((((List.range' b (e - b)).filter
            (fun i => binIdx (inp.centers (prim i)) axis == j)).map
            (fun i => inp.bboxes (prim i))))
    ∧ (binsFor inp prim axis b e binIdx j).2
        = ((List.range' b (e - b)).filter
            (fun i => binIdx (inp.centers (prim i)) axis == j)).length := by
  obtain ⟨hb, hc⟩ := binsFold_char inp prim axis binIdx (List.range' b (e - b))
    (fun _ => (BBox.empty0, 0)) j
  unfold binsFor
  exact ⟨hb, by rw [hc]; simp⟩

theorem bestChar_update {inp : Input} {bins : ℕ → BBox × ℕ} {k : ℕ} {best : Scalar × ℕ}
    (h : bestChar inp bins k best) :
    bestChar inp bins (k + 1)
      (if specSplitCost inp bins (k + 1) < best.1
        then (specSplitCost inp bins (k + 1), k + 1) else best) := by
  by_cases hlt : specSplitCost inp bins (k + 1) < best.1
  · rw [if_pos hlt]
    have hlt2 : specSplitCost inp bins (k + 1) < scalarMax := by
      rcases h with ⟨hsent, _⟩ | ⟨_, _, _, h4, _, _⟩
      · rw [hsent] at hlt
        exact hlt
      · exact lt_trans hlt h4
    have hle : ∀ bd, 1 ≤ bd → bd ≤ k →
        specSplitCost inp bins (k + 1) < specSplitCost inp bins bd := by
      intro bd hb1 hb2
      rcases h with ⟨hsent, hall⟩ | ⟨_, _, _, _, h5, _⟩
      · rw [hsent] at hlt
        exact lt_of_lt_of_le hlt (hall bd hb1 hb2)
      · exact lt_of_lt_of_le hlt (h5 bd hb1 hb2)
    refine Or.inr ⟨?_, ?_, ?_, ?_, ?_, ?_⟩
    · show 1 ≤ k + 1
      omega
    · show k + 1 ≤ k + 1
      exact le_refl _
    · rfl
    · exact hlt2
    · intro bd hb1 hb2
      show specSplitCost inp bins (k + 1) ≤ specSplitCost inp bins bd
      rcases Nat.lt_or_ge bd (k + 1) with hc | hc
      · exact le_of_lt (hle bd hb1 (by omega))
      · have heq : bd = k + 1 := by omega
        rw [heq]
    · intro bd hb1 hb2
      have hb3 : bd < k + 1 := hb2
      exact hle bd hb1 (by omega)
  · rw [if_neg hlt]
    push_neg at hlt
    rcases h with ⟨hsent, hall⟩ | ⟨h1, h2, h3, h4, h5, h6⟩
    · refine Or.inl ⟨hsent, ?_⟩
      intro bd hb1 hb2
      rcases Nat.lt_or_ge bd (k + 1) with hc | hc
      · exact hall bd hb1 (by omega)
      · have heq : bd = k + 1 := by omega
        rw [heq]
        rw [hsent] at hlt
        exact hlt
    · refine Or.inr ⟨h1, by omega, h3, h4, ?_, h6⟩
      intro bd hb1 hb2
      rcases Nat.lt_or_ge bd (k + 1) with hc | hc
      · exact h5 bd hb1 (by omega)
      · have heq : bd = k + 1 := by omega
        rw [heq]
        exact hlt

theorem leftSweepAux (inp : Input) (bins : ℕ → BBox × ℕ) :
    ∀ (k : ℕ), k ≤ inp.bin_count - 1 →
    ((List.range k).foldl (sweepStep bins (rightCosts inp bins))
          ((scalarMax, inp.bin_count), BBox.empty0, 0)).2.1
        = binBoxUnion bins 0 k
    ∧ ((List.range k).foldl (sweepStep bins (rightCosts inp bins))
          ((scalarMax, inp.bin_count), BBox.empty0, 0)).2.2
        = binCountSum bins 0 k
    ∧ bestChar inp bins k
        ((List.range k).foldl (sweepStep bins (rightCosts inp bins))
          ((scalarMax, inp.bin_count), BBox.empty0, 0)).1 := by
  intro k
  induction k with
  | zero =>
    intro hk
    refine ⟨rfl, rfl, Or.inl ⟨rfl, ?_⟩⟩
    intro bd h1 h2
    omega
  | succ k ih =>
    intro hk
    obtain ⟨ihb, ihc, ihbest⟩ := ih (by omega)
    rw [List.range_succ, List.foldl_append, List.foldl_cons, List.foldl_nil]
    set res := (List.range k).foldl (sweepStep bins (rightCosts inp bins))
      ((scalarMax, inp.bin_count), BBox.empty0, 0) with hres
    have hbb : res.2.1.extend (bins k).1 = binBoxUnion bins 0 (k + 1) := by
      rw [ihb, binBoxUnion_succ]
      simp
    have hcnt : res.2.2 + (bins k).2 = binCountSum bins 0 (k + 1) := by
      rw [ihc, binCountSum_succ]
      simp
    have hcost : (res.2.1.extend (bins k).1).half_area * ((res.2.2 + (bins k).2 : ℕ) : Scalar)
        + rightCosts inp bins (k + 1) = specSplitCost inp bins (k + 1) := by
      rw [hbb, hcnt, rightCosts_eq inp bins (by omega) (by omega)]
      rfl
    have hstep : sweepStep bins (rightCosts inp bins) res k
        = (if (res.2.1.extend (bins k).1).half_area * ((res.2.2 + (bins k).2 : ℕ) : Scalar)
              + rightCosts inp bins (k + 1) < res.1.1
            then ((res.2.1.extend (bins k).1).half_area * ((res.2.2 + (bins k).2 : ℕ) : Scalar)
              + rightCosts inp bins (k + 1), k + 1)
            else res.1,
          res.2.1.extend (bins k).1, res.2.2 + (bins k).2) := rfl
    rw [hstep]
    refine ⟨hbb, hcnt, ?_⟩
    rw [hcost]
    exact bestChar_update ihbest

/-- C1: for every axis, range and bin-index mapping, `find_split` fills the bins
by assigning each primitive in the range to the bin of its mapped centroid
(extending that bin's box with the primitive's full bounding box), and returns
the pair `(cost, boundary)` minimizing
`half_area(union of bins [0, bd)) * count[0, bd) +
 half_area(union of bins [bd, BinCount)) * count[bd, BinCount)`
over boundaries `bd ∈ [1, BinCount - 1]`, the lowest-index boundary winning
ties (strictly-less comparison).  The hypothesis asks some candidate cost to
beat the sentinel initial cost `scalarMax`
(`std::numeric_limits<Scalar>::max()`), as is the case whenever costs do not
overflow. -/
theorem claim_C1 (inp : Input) (prim : ℕ → ℕ) (axis b e : ℕ) (binIdx : Vec3 → ℕ → ℕ)
    (hbc : 2 ≤ inp.bin_count)
    (hex : ∃ bd, 1 ≤ bd ∧ bd < inp.bin_count ∧
      specSplitCost inp (binsFor inp prim axis b e binIdx) bd < scalarMax) :
    (1 ≤ (find_split inp prim axis b e binIdx).2
      ∧ (find_split inp prim axis b e binIdx).2 < inp.bin_count)
    ∧ (find_split inp prim axis b e binIdx).1
        = specSplitCost inp (binsFor inp prim axis b e binIdx)
            (find_split inp prim axis b e binIdx).2
    ∧ (∀ bd, 1 ≤ bd → bd < inp.bin_count →
        (find_split inp prim axis b e binIdx).1
          ≤ specSplitCost inp (binsFor inp prim axis b e binIdx) bd)
    ∧ (∀ bd, 1 ≤ bd → bd < (find_split inp prim axis b e binIdx).2 →
        (find_split inp prim axis b e binIdx).1
          < specSplitCost inp (binsFor inp prim axis b e binIdx) bd)
    ∧ (∀ j, (binsFor inp prim axis b e binIdx j).2
          = ((List.range' b (e - b)).filter
              (fun i => binIdx (inp.centers (prim i)) axis == j)).length
        ∧ (binsFor inp prim axis b e binIdx j).1
          = unionFold (((List.range' b (e - b)).filter
              (fun i => binIdx (inp.centers (prim i)) axis == j)).map
              (fun i => inp.bboxes (prim i)))) := by
  obtain ⟨_, _, hbest⟩ := leftSweepAux inp (binsFor inp prim axis b e binIdx)
    (inp.bin_count - 1) (le_refl _)
  have hfs : find_split inp prim axis b e binIdx
      = ((List.range (inp.bin_count - 1)).foldl
          (sweepStep (binsFor inp prim axis b e binIdx)
            (rightCosts inp (binsFor inp prim axis b e binIdx)))
          ((scalarMax, inp.bin_count), BBox.empty0, 0)).1 := rfl
  rw [hfs]
  rcases hbest with ⟨hsent, hall⟩ | ⟨h1, h2, h3, h4, h5, h6⟩
  · exfalso
    obtain ⟨bd, hb1, hb2, hb3⟩ := hex
    exact absurd (hall bd hb1 (by omega)) (not_le.mpr hb3)
  · refine ⟨⟨h1, by omega⟩, h3, ?_, h6, ?_⟩
    · intro bd hb1 hb2
      exact h5 bd hb1 (by omega)
    · intro j
      obtain ⟨hcb, hcc⟩ := binsFor_char inp prim axis b e binIdx j
      exact ⟨hcc, hcb⟩

/-! ### Axis selection and the leaf-vs-split decision -/
theorem beginRightOf_bounds (inp : Input) (prim : ℕ → ℕ) (it : WorkItem)
    (hbe : it.begin_ ≤ it.end_) :
    it.begin_ ≤ beginRightOf inp prim it ∧ beginRightOf inp prim it ≤ it.end_ := by
  unfold beginRightOf
  have hlen := List.length_filter_le (partPred inp prim it) (rangeList prim it.begin_ it.end_)
  rw [rangeList_length] at hlen
  omega

/-- The two `if` statements of the axis selection pick the least-cost axis,
ties broken toward the lowest axis index. -/
theorem bestAxis_spec (s0 s1 s2 : Scalar × ℕ) (f : ℕ → Scalar × ℕ)
    (hf0 : f 0 = s0) (hf1 : f 1 = s1) (hf2 : f 2 = s2) :
    bestAxis s0 s1 s2 < 3
    ∧ (∀ axis, axis < 3 → (f (bestAxis s0 s1 s2)).1 ≤ (f axis).1)
    ∧ (∀ axis, axis < bestAxis s0 s1 s2 → (f (bestAxis s0 s1 s2)).1 < (f axis).1) := by
  simp only [bestAxis]
  by_cases hA : s0.1 > s1.1
  · rw [if_pos hA, if_pos hA]
    by_cases hB : s1.1 > s2.1
    · rw [if_pos hB]
      refine ⟨by omega, ?_, ?_⟩
      · intro axis h3
        interval_cases axis
        all_goals simp only [hf0, hf1, hf2]
        all_goals linarith
      · intro axis h3
        interval_cases axis
        all_goals simp only [hf0, hf1, hf2]
        all_goals linarith
    · rw [if_neg hB]
      push_neg at hB
      refine ⟨by omega, ?_, ?_⟩
      · intro axis h3
        interval_cases axis
        all_goals simp only [hf0, hf1, hf2]
        all_goals linarith
      · intro axis h3
        interval_cases axis
        all_goals simp only [hf0, hf1, hf2]
        all_goals linarith
  · rw [if_neg hA, if_neg hA]
    push_neg at hA
    by_cases hB : s0.1 > s2.1
    · rw [if_pos hB]
      refine ⟨by omega, ?_, ?_⟩
      · intro axis h3
        interval_cases axis
        all_goals simp only [hf0, hf1, hf2]
        all_goals linarith
      · intro axis h3
        interval_cases axis
        all_goals simp only [hf0, hf1, hf2]
        all_goals linarith
    · rw [if_neg hB]
      push_neg at hB
      refine ⟨by omega, ?_, ?_⟩
      · intro axis h3
        interval_cases axis
        all_goals simp only [hf0, hf1, hf2]
        all_goals linarith
      · intro axis h3
        omega

theorem splitResult_parent_fields (inp : Input) (st : BvhState) (item : WorkItem) :
    ((splitResult inp st item).nodes item.node_index).is_leaf = false
    ∧ ((splitResult inp st item).nodes item.node_index).primitive_count = 0
    ∧ ((splitResult inp st item).nodes item.node_index).first_child_or_primitive
        = st.node_count := by
  have hne : st.node_count + 1 ≠ st.node_count := by omega
  have hne2 : st.node_count ≠ st.node_count + 1 := by omega
  by_cases h1 : item.node_index = st.node_count + 1
  · simp [splitResult, BvhState.setNode, h1, hne]
  · by_cases h2 : item.node_index = st.node_count
    · simp [splitResult, BvhState.setNode, h1, h2, hne, hne2]
    · simp [splitResult, BvhState.setNode, h1, h2]

/-- C2 (amended): past the forced-leaf check, `build` picks the axis of minimum
split cost (lowest axis index on ties); it makes a leaf and returns no work if
the best boundary is the sentinel `bin_count` or the best cost is at least
`half_area(node bbox) * (work_size - traversal_cost)`; whenever it splits, the
best cost is strictly below that threshold; and whenever it does not split,
either the boundary was the sentinel, or that inequality failed, or the
partition left one side empty (the degenerate-split guard of the source, which
the original claim omitted). -/
theorem claim_C2 (inp : Input) (st : BvhState) (item : WorkItem)
    (h1 : ¬ (item.work_size ≤ 1 ∨ inp.max_depth ≤ item.depth)) :
    (chosenAxis inp st.primitive_indices item < 3
      ∧ (∀ axis, axis < 3 → (chosenPair inp st.primitive_indices item).1
          ≤ (splitOn inp st.primitive_indices item axis).1)
      ∧ (∀ axis, axis < chosenAxis inp st.primitive_indices item →
          (chosenPair inp st.primitive_indices item).1
            < (splitOn inp st.primitive_indices item axis).1))
    ∧ (((chosenPair inp st.primitive_indices item).2 = inp.bin_count ∨
        (st.nodes item.node_index).bbox.half_area *
          ((item.work_size : Scalar) - inp.traversal_cost)
          ≤ (chosenPair inp st.primitive_indices item).1) →
        buildStep inp st item = (leafResult st item, none))
    ∧ (∀ st2 a b, buildStep inp st item = (st2, some (a, b)) →
        (chosenPair inp st.primitive_indices item).1 <
          (st.nodes item.node_index).bbox.half_area *
            ((item.work_size : Scalar) - inp.traversal_cost))
    ∧ ((buildStep inp st item).2 = none →
        (chosenPair inp st.primitive_indices item).2 = inp.bin_count
        ∨ (st.nodes item.node_index).bbox.half_area *
            ((item.work_size : Scalar) - inp.traversal_cost)
            ≤ (chosenPair inp st.primitive_indices item).1
        ∨ beginRightOf inp st.primitive_indices item = item.begin_
        ∨ beginRightOf inp st.primitive_indices item = item.end_) := by
  obtain ⟨ha1, ha2, ha3⟩ := bestAxis_spec (splitOn inp st.primitive_indices item 0)
    (splitOn inp st.primitive_indices item 1) (splitOn inp st.primitive_indices item 2)
    (splitOn inp st.primitive_indices item) rfl rfl rfl
  refine ⟨⟨ha1, ha2, ha3⟩, fun h2 => buildStep_costLeaf h1 h2, ?_, ?_⟩
  · intro st2 a b h
    exact (buildStep_some_inv h).2.2.2.1
  · intro hnone
    by_cases h2 : (chosenPair inp st.primitive_indices item).2 = inp.bin_count ∨
        (st.nodes item.node_index).bbox.half_area *
          ((item.work_size : Scalar) - inp.traversal_cost)
          ≤ (chosenPair inp st.primitive_indices item).1
    · rcases h2 with h2 | h2
      · exact Or.inl h2
      · exact Or.inr (Or.inl h2)
    · by_cases h3 : item.begin_ < beginRightOf inp st.primitive_indices item ∧
          beginRightOf inp st.primitive_indices item < item.end_
      · rw [buildStep_split h1 h2 h3] at hnone
        simp at hnone
      · have hbe : item.begin_ ≤ item.end_ := by
          push_neg at h1
          have h4 : 2 ≤ item.work_size := h1.1
          rw [ws_iff] at h4
          omega
        obtain ⟨hb1, hb2⟩ := beginRightOf_bounds inp st.primitive_indices item hbe
        refine Or.inr (Or.inr ?_)
        omega

/-- C7: the recursive build terminates on every input — `build` makes a leaf
and returns no work whenever the range holds at most one primitive or the depth
reached `max_depth`; whenever it splits, the two emitted children partition
`[begin, end)` into non-empty strict sub-ranges at depth + 1, which never
exceeds `max_depth`; and the scheduler loop finishes within `loopFuel` steps on
every state and work list. -/
theorem claim_C7 :
    (∀ (inp : Input) (st : BvhState) (item : WorkItem),
      item.work_size ≤ 1 ∨ inp.max_depth ≤ item.depth →
        buildStep inp st item = (leafResult st item, none))
    ∧ (∀ (inp : Input) (st : BvhState) (item : WorkItem) (st2 : BvhState) (a b : WorkItem),
      buildStep inp st item = (st2, some (a, b)) →
        a.begin_ = item.begin_ ∧ a.end_ = b.begin_ ∧ b.end_ = item.end_
        ∧ item.begin_ < a.end_ ∧ a.end_ < item.end_
        ∧ a.depth = item.depth + 1 ∧ b.depth = item.depth + 1
        ∧ item.depth + 1 ≤ inp.max_depth)
    ∧ (∀ (inp : Input) (fuel : ℕ) (st : BvhState) (items : List WorkItem),
      loopFuel items ≤ fuel → (buildLoopF inp fuel st items).isSome = true) := by
  refine ⟨fun inp st item h => buildStep_forced h, ?_, buildLoopF_total⟩
  intro inp st item st2 a b h
  obtain ⟨hws, hdep, _, _, h5, h6, ha, hb, _⟩ := buildStep_some_inv h
  subst ha
  subst hb
  exact ⟨rfl, rfl, rfl, h5, h6, rfl, rfl, by omega⟩

/-- C10: every invocation of `build` leaves the processed node in exactly one of
two consistent states — if it returns no work items the node is a leaf with
`first_child_or_primitive = begin` and `primitive_count = end - begin`; if it
returns two work items the node is internal with `primitive_count = 0`,
`first_child_or_primitive` the left child's index, and the right child at that
index plus one. -/
theorem claim_C10 (inp : Input) (st : BvhState) (item : WorkItem) :
    ((buildStep inp st item).2 = none →
      (((buildStep inp st item).1).nodes item.node_index).is_leaf = true
      ∧ (((buildStep inp st item).1).nodes item.node_index).first_child_or_primitive
          = item.begin_
      ∧ (((buildStep inp st item).1).nodes item.node_index).primitive_count
          = item.end_ - item.begin_)
    ∧ (∀ st2 a b, buildStep inp st item = (st2, some (a, b)) →
      (st2.nodes item.node_index).is_leaf = false
      ∧ (st2.nodes item.node_index).primitive_count = 0
      ∧ (st2.nodes item.node_index).first_child_or_primitive = a.node_index
      ∧ b.node_index = a.node_index + 1) := by
  constructor
  · intro hnone
    rcases buildStep_shape inp st item with h | ⟨_, h⟩ | ⟨_, h⟩
    · rw [h]
      rw [show (leafResult st item, (none : Option (WorkItem × WorkItem))).1
          = leafResult st item from rfl, leafResult_nodes_self]
      exact ⟨rfl, rfl, rfl⟩
    · rw [h]
      rw [show (leafResult (partitionedState inp st item) item,
          (none : Option (WorkItem × WorkItem))).1
          = leafResult (partitionedState inp st item) item from rfl, leafResult_nodes_self]
      exact ⟨rfl, rfl, rfl⟩
    · rw [h] at hnone
      simp at hnone
  · intro st2 a b h
    obtain ⟨_, _, _, _, _, _, ha, hb, hst⟩ := buildStep_some_inv h
    subst ha
    subst hb
    subst hst
    obtain ⟨hl, hp, hf⟩ := splitResult_parent_fields inp st item
    exact ⟨hl, hp, hf, rfl⟩

/-! ### The partition (C3) and the bin-index mapping (C6) -/
theorem Vec3.get_sub3 (a b : Vec3) (axis : ℕ) :
    (a.sub3 b).get axis = a.get axis - b.get axis := by
  rcases axis with _ | _ | n <;> rfl

theorem Vec3.get_inv3 (v : Vec3) (axis : ℕ) : (v.inv3).get axis = 1 / v.get axis := by
  rcases axis with _ | _ | n <;> rfl

theorem Vec3.get_smul3 (v : Vec3) (s : Scalar) (axis : ℕ) :
    (v.smul3 s).get axis = v.get axis * s := by
  rcases axis with _ | _ | n <;> rfl

theorem Vec3.get_neg3 (v : Vec3) (axis : ℕ) : (v.neg3).get axis = -(v.get axis) := by
  rcases axis with _ | _ | n <;> rfl

theorem Vec3.get_mul3 (a b : Vec3) (axis : ℕ) :
    (a.mul3 b).get axis = a.get axis * b.get axis := by
  rcases axis with _ | _ | n <;> rfl

theorem partPred_iff (inp : Input) (prim : ℕ → ℕ) (it : WorkItem) (i : ℕ) :
    partPred inp prim it i = true ↔
      binIdxOf inp (centerBBoxOf inp prim it.begin_ it.end_) (inp.centers i)
        (chosenAxis inp prim it) < (chosenPair inp prim it).2 := by
  unfold partPred
  exact decide_eq_true_iff

/-- Positions `[begin, begin_right)` of the partitioned array hold primitives
satisfying the partition predicate. -/
theorem partPrim_left {inp : Input} {prim : ℕ → ℕ} {it : WorkItem} {k : ℕ}
    (hbe : it.begin_ ≤ it.end_) (h1 : it.begin_ ≤ k)
    (h2 : k < beginRightOf inp prim it) :
    partPred inp prim it (partPrim inp prim it k) = true := by
  have hbr := beginRightOf_bounds inp prim it hbe
  have h2b : k < it.begin_
      + ((rangeList prim it.begin_ it.end_).filter (partPred inp prim it)).length := h2
  have h3 : it.begin_
      + ((rangeList prim it.begin_ it.end_).filter (partPred inp prim it)).length
      ≤ it.end_ := hbr.2
  have hlen : k - it.begin_
      < ((rangeList prim it.begin_ it.end_).filter (partPred inp prim it)).length := by
    omega
  have hwr : partPrim inp prim it k = (partList inp prim it).getD (k - it.begin_) 0 := by
    unfold partPrim
    refine writeRange_in h1 ?_
    rw [partList_length]
    omega
  rw [hwr]
  unfold partList
  rw [List.getD_append _ _ _ _ hlen, List.getD_eq_getElem _ _ hlen]
  have hmem := List.getElem_mem hlen
  exact (List.mem_filter.mp hmem).2

/-- Positions `[begin_right, end)` of the partitioned array hold primitives
violating the partition predicate. -/
theorem partPrim_right {inp : Input} {prim : ℕ → ℕ} {it : WorkItem} {k : ℕ}
    (hbe : it.begin_ ≤ it.end_) (h1 : beginRightOf inp prim it ≤ k)
    (h2 : k < it.end_) :
    partPred inp prim it (partPrim inp prim it k) = false := by
  have h1b : it.begin_
      + ((rangeList prim it.begin_ it.end_).filter (partPred inp prim it)).length ≤ k := h1
  have hge : ((rangeList prim it.begin_ it.end_).filter (partPred inp prim it)).length
      ≤ k - it.begin_ := by
    omega
  have hwr : partPrim inp prim it k = (partList inp prim it).getD (k - it.begin_) 0 := by
    unfold partPrim
    refine writeRange_in (by omega) ?_
    rw [partList_length]
    omega
  have hpll := partList_length inp prim it
  have hpl2 : ((rangeList prim it.begin_ it.end_).filter (partPred inp prim it)).length
      + ((rangeList prim it.begin_ it.end_).filter
          (fun i => ! partPred inp prim it i)).length = it.end_ - it.begin_ := by
    unfold partList at hpll
    rw [List.length_append] at hpll
    exact hpll
  have hlen2 : k - it.begin_
        - ((rangeList prim it.begin_ it.end_).filter (partPred inp prim it)).length
      < ((rangeList prim it.begin_ it.end_).filter
          (fun i => ! partPred inp prim it i)).length := by
    omega
  rw [hwr]
  unfold partList
  rw [List.getD_append_right _ _ _ _ hge, List.getD_eq_getElem _ _ hlen2]
  have hmem := List.getElem_mem hlen2
  have hf := (List.mem_filter.mp hmem).2
  simpa using hf

/-- C3: whenever `build` splits, after the in-place partition every position in
`[begin, begin_right)` holds a primitive whose bin index on the winning axis
(computed with the same mapping used during evaluation) is below the chosen
boundary, every position in `[begin_right, end)` one whose bin index is at or
above it, and the two returned work items are exactly
`(left_child, begin, begin_right, depth+1)` and
`(left_child+1, begin_right, end, depth+1)` with `left_child` the first freshly
allocated slot, which the parent now points at. -/
theorem claim_C3 (inp : Input) (st : BvhState) (item : WorkItem) (st2 : BvhState)
    (a b : WorkItem) (h : buildStep inp st item = (st2, some (a, b))) :
    a = ⟨st.node_count, item.begin_, beginRightOf inp st.primitive_indices item,
        item.depth + 1⟩
    ∧ b = ⟨st.node_count + 1, beginRightOf inp st.primitive_indices item, item.end_,
        item.depth + 1⟩
    ∧ (st2.nodes item.node_index).first_child_or_primitive = a.node_index
    ∧ (∀ k, item.begin_ ≤ k → k < a.end_ →
        binIdxOf inp (centerBBoxOf inp st.primitive_indices item.begin_ item.end_)
            (inp.centers (st2.primitive_indices k)) (chosenAxis inp st.primitive_indices item)
          < (chosenPair inp st.primitive_indices item).2)
    ∧ (∀ k, a.end_ ≤ k → k < item.end_ →
        (chosenPair inp st.primitive_indices item).2 ≤
          binIdxOf inp (centerBBoxOf inp st.primitive_indices item.begin_ item.end_)
            (inp.centers (st2.primitive_indices k))
            (chosenAxis inp st.primitive_indices item)) := by
  obtain ⟨hws, _, _, _, h5, h6, ha, hb, hst⟩ := buildStep_some_inv h
  have hbe : item.begin_ ≤ item.end_ := by
    rw [ws_iff] at hws
    omega
  subst ha
  subst hb
  subst hst
  refine ⟨rfl, rfl, (splitResult_parent_fields inp st item).2.2, ?_, ?_⟩
  · intro k hk1 hk2
    have hp := partPrim_left hbe hk1 hk2
    rw [partPred_iff] at hp
    exact hp
  · intro k hk1 hk2
    rw [splitResult_prim]
    have hk1b : beginRightOf inp st.primitive_indices item ≤ k := hk1
    have hp := partPrim_right hbe hk1b hk2
    have hp2 : ¬ (partPred inp st.primitive_indices item
        (partPrim inp st.primitive_indices item k) = true) := by
      rw [hp]
      simp
    rw [partPred_iff] at hp2
    omega

/-- C6: for every centroid between the node's centroid-box bounds on the axis,
the source's per-node bin-index mapping equals the spec's
`clamp(floor(centroid * scale + offset), 0, BinCount - 1)` with
`scale = BinCount / extent`, `offset = -min * scale`; its argument is in the
region where the `size_t` conversion is defined; the returned index is always
below `bin_count`; and the very same mapping (same `center_bbox`) is what
`build` passes to `find_split` and uses in the partition predicate. -/
theorem claim_C6 (inp : Input) (cb : BBox) (c : Vec3) (axis : ℕ)
    (hbc : 1 ≤ inp.bin_count)
    (hcb : cb.min.get axis ≤ cb.max.get axis)
    (hc1 : cb.min.get axis ≤ c.get axis) :
    (0 ≤ multiply_add (c.get axis)
        ((cb.diagonal.inv3.smul3 (inp.bin_count : Scalar)).get axis)
        ((cb.min.neg3.mul3 (cb.diagonal.inv3.smul3 (inp.bin_count : Scalar))).get axis))
    ∧ binIdxOf inp cb c axis = specBinIndex inp cb c axis
    ∧ binIdxOf inp cb c axis < inp.bin_count
    ∧ (∀ (prim : ℕ → ℕ) (it : WorkItem), chosenPair inp prim it
        = find_split inp prim (chosenAxis inp prim it) it.begin_ it.end_
            (binIdxOf inp (centerBBoxOf inp prim it.begin_ it.end_)))
    ∧ (∀ (prim : ℕ → ℕ) (it : WorkItem) (i : ℕ), partPred inp prim it i
        = decide (binIdxOf inp (centerBBoxOf inp prim it.begin_ it.end_) (inp.centers i)
            (chosenAxis inp prim it) < (chosenPair inp prim it).2)) := by
  have hq2 : multiply_add (c.get axis)
        ((cb.diagonal.inv3.smul3 (inp.bin_count : Scalar)).get axis)
        ((cb.min.neg3.mul3 (cb.diagonal.inv3.smul3 (inp.bin_count : Scalar))).get axis)
      = c.get axis * ((inp.bin_count : Scalar) / (cb.max.get axis - cb.min.get axis))
        + -(cb.min.get axis)
          * ((inp.bin_count : Scalar) / (cb.max.get axis - cb.min.get axis)) := by
    simp only [multiply_add, Vec3.get_mul3, Vec3.get_neg3, Vec3.get_smul3, Vec3.get_inv3,
      BBox.diagonal, Vec3.get_sub3]
    ring
  have hq : multiply_add (c.get axis)
        ((cb.diagonal.inv3.smul3 (inp.bin_count : Scalar)).get axis)
        ((cb.min.neg3.mul3 (cb.diagonal.inv3.smul3 (inp.bin_count : Scalar))).get axis)
      = (c.get axis - cb.min.get axis)
        * ((inp.bin_count : Scalar) / (cb.max.get axis - cb.min.get axis)) := by
    rw [hq2]
    ring
  have hq0 : 0 ≤ multiply_add (c.get axis)
        ((cb.diagonal.inv3.smul3 (inp.bin_count : Scalar)).get axis)
        ((cb.min.neg3.mul3 (cb.diagonal.inv3.smul3 (inp.bin_count : Scalar))).get axis) := by
    rw [hq]
    apply mul_nonneg
    · linarith
    · apply div_nonneg
      · positivity
      · linarith
  have hbi : binIdxOf inp cb c axis
      = min (⌊multiply_add (c.get axis)
          ((cb.diagonal.inv3.smul3 (inp.bin_count : Scalar)).get axis)
          ((cb.min.neg3.mul3 (cb.diagonal.inv3.smul3 (inp.bin_count : Scalar))).get
            axis)⌋.toNat)
        (inp.bin_count - 1) := rfl
  have hsp : specBinIndex inp cb c axis
      = (min (max (⌊c.get axis
            * ((inp.bin_count : Scalar) / (cb.max.get axis - cb.min.get axis))
          + -(cb.min.get axis)
            * ((inp.bin_count : Scalar) / (cb.max.get axis - cb.min.get axis))⌋) 0)
          ((inp.bin_count : ℤ) - 1)).toNat := rfl
  refine ⟨hq0, ?_, ?_, fun prim it => rfl, fun prim it i => rfl⟩
  · rw [hbi, hsp, hq2]
    omega
  · rw [hbi]
    omega

theorem foldl_extend_map (g : ℕ → BBox) (l : List ℕ) (B : BBox) :
    l.foldl (fun bb i => bb.extend (g i)) B = (l.map g).foldl BBox.extend B := by
  induction l generalizing B with
  | nil => rfl
  | cons a t ih => simp only [List.foldl_cons, List.map_cons, ih]

/-- Any fold of bin boxes starting from the empty sentinel is well formed. -/
theorem fold_bins_WFB (bins : ℕ → BBox × ℕ) (l : List ℕ) :
    WFB (l.foldl (fun bb i => bb.extend (bins i).1) BBox.empty0) := by
  rw [foldl_extend_map]
  exact WFB_foldl_extend _ WFB_empty0

/-- Such a fold contains every participating bin box. -/
theorem fold_bins_contains_mem (bins : ℕ → BBox × ℕ) {l : List ℕ} {j : ℕ} (hj : j ∈ l) :
    contains (l.foldl (fun bb i => bb.extend (bins i).1) BBox.empty0) ((bins j).1) := by
  rw [foldl_extend_map]
  exact foldl_extend_contains_mem (List.mem_map_of_mem _ hj) _

/-- A box containing every participating bin box contains such a fold. -/
theorem contains_fold_bins {P : BBox} (bins : ℕ → BBox × ℕ) {l : List ℕ} (hP : WFB P)
    (hb : ∀ j ∈ l, contains P ((bins j).1)) :
    contains P (l.foldl (fun bb i => bb.extend (bins i).1) BBox.empty0) := by
  rw [foldl_extend_map]
  refine contains_foldl_extend hP ?_
  intro x hx
  obtain ⟨j, hj, rfl⟩ := List.mem_map.mp hx
  exact hb j hj

/-- A box containing the boxes of all primitives stored in `[b, e)` contains
every filled bin's box. -/
theorem contains_binBox {inp : Input} {prim : ℕ → ℕ} {axis b e : ℕ}
    {binIdx : Vec3 → ℕ → ℕ} {P : BBox} (hP : WFB P)
    (hall : ∀ k, b ≤ k → k < e → contains P (inp.bboxes (prim k))) (j : ℕ) :
    contains P ((binsFor inp prim axis b e binIdx j).1) := by
  rw [(binsFor_char inp prim axis b e binIdx j).1]
  refine contains_unionFold hP ?_
  intro x hx
  obtain ⟨i, hi, rfl⟩ := List.mem_map.mp hx
  obtain ⟨hi1, _⟩ := List.mem_filter.mp hi
  rw [List.mem_range'_1] at hi1
  exact hall i hi1.1 (by omega)

/-- The box of the bin a primitive of the range lands in contains that
primitive's box. -/
theorem binBox_contains {inp : Input} {prim : ℕ → ℕ} {axis b e : ℕ}
    {binIdx : Vec3 → ℕ → ℕ} {i : ℕ} (h1 : b ≤ i) (h2 : i < e) :
    contains ((binsFor inp prim axis b e binIdx
        (binIdx (inp.centers (prim i)) axis)).1) (inp.bboxes (prim i)) := by
  rw [(binsFor_char inp prim axis b e binIdx _).1]
  refine foldl_extend_contains_mem ?_ _
  refine List.mem_map.mpr ⟨i, ?_, rfl⟩
  refine List.mem_filter.mpr ⟨?_, by simp⟩
  rw [List.mem_range'_1]
  omega

/-- The parent's box contains both child boxes written at a split. -/
theorem parent_contains_children {inp : Input} {prim : ℕ → ℕ} {it : WorkItem} {P : BBox}
    (hP : WFB P)
    (hall : ∀ k, it.begin_ ≤ k → k < it.end_ → contains P (inp.bboxes (prim k))) :
    contains P (leftChildBox inp prim it) ∧ contains P (rightChildBox inp prim it) := by
  constructor
  · unfold leftChildBox
    exact contains_fold_bins _ hP (fun j hj => contains_binBox hP hall j)
  · unfold rightChildBox
    exact contains_fold_bins _ hP (fun j hj => contains_binBox hP hall j)

theorem binIdxOf_lt (inp : Input) (cb : BBox) (c : Vec3) (axis : ℕ)
    (hbc : 1 ≤ inp.bin_count) : binIdxOf inp cb c axis < inp.bin_count := by
  have h : binIdxOf inp cb c axis
      ≤ inp.bin_count - 1 := Nat.min_le_right _ _
  omega

/-- A value stored in the partitioned slice was stored in the slice before. -/
theorem partPrim_mem {inp : Input} {prim : ℕ → ℕ} {it : WorkItem} {k : ℕ}
    (hbe : it.begin_ ≤ it.end_) (h1 : it.begin_ ≤ k) (h2 : k < it.end_) :
    partPrim inp prim it k ∈ rangeList prim it.begin_ it.end_ := by
  have hlt : k - it.begin_ < (partList inp prim it).length := by
    rw [partList_length]
    omega
  have hwr : partPrim inp prim it k = (partList inp prim it).getD (k - it.begin_) 0 := by
    unfold partPrim
    refine writeRange_in h1 ?_
    rw [partList_length]
    omega
  rw [hwr, List.getD_eq_getElem _ _ hlt]
  exact (partList_perm inp prim it).subset (List.getElem_mem hlt)

/-- The left child's box contains the boxes of everything the partition put in
`[begin, begin_right)`. -/
theorem leftChildBox_contains {inp : Input} {prim : ℕ → ℕ} {it : WorkItem} {k : ℕ}
    (hbe : it.begin_ ≤ it.end_) (h1 : it.begin_ ≤ k)
    (h2 : k < beginRightOf inp prim it) :
    contains (leftChildBox inp prim it) (inp.bboxes (partPrim inp prim it k)) := by
  have hbr := beginRightOf_bounds inp prim it hbe
  have hpl := partPrim_left hbe h1 h2
  rw [partPred_iff] at hpl
  have hk2 : k < it.end_ := lt_of_lt_of_le h2 hbr.2
  obtain ⟨i, hi1, hi2, hveq⟩ := mem_rangeList.mp (partPrim_mem hbe h1 hk2)
  have hc1 : contains (leftChildBox inp prim it)
      ((binsFor inp prim (chosenAxis inp prim it) it.begin_ it.end_
          (binIdxOf inp (centerBBoxOf inp prim it.begin_ it.end_))
          (binIdxOf inp (centerBBoxOf inp prim it.begin_ it.end_)
            (inp.centers (partPrim inp prim it k)) (chosenAxis inp prim it))).1) :=
    fold_bins_contains_mem _ (List.mem_range.mpr hpl)
  have hc2 : contains
      ((binsFor inp prim (chosenAxis inp prim it) it.begin_ it.end_
          (binIdxOf inp (centerBBoxOf inp prim it.begin_ it.end_))
          (binIdxOf inp (centerBBoxOf inp prim it.begin_ it.end_)
            (inp.centers (partPrim inp prim it k)) (chosenAxis inp prim it))).1)
      (inp.bboxes (partPrim inp prim it k)) := by
    rw [hveq]
    exact binBox_contains hi1 hi2
  exact contains_trans hc1 hc2

/-- The right child's box contains the boxes of everything the partition put in
`[begin_right, end)`; needs `bin_count ≥ 1` so bin indices stay in range. -/
theorem rightChildBox_contains {inp : Input} {prim : ℕ → ℕ} {it : WorkItem} {k : ℕ}
    (hbc : 1 ≤ inp.bin_count) (hbe : it.begin_ ≤ it.end_)
    (h1 : beginRightOf inp prim it ≤ k) (h2 : k < it.end_) :
    contains (rightChildBox inp prim it) (inp.bboxes (partPrim inp prim it k)) := by
  have hbr := beginRightOf_bounds inp prim it hbe
  have hpr := partPrim_right hbe h1 h2
  have hpl : ¬ (partPred inp prim it (partPrim inp prim it k) = true) := by
    rw [hpr]
    simp
  rw [partPred_iff] at hpl
  have hk1 : it.begin_ ≤ k := le_trans hbr.1 h1
  obtain ⟨i, hi1, hi2, hveq⟩ := mem_rangeList.mp (partPrim_mem hbe hk1 h2)
  have hup := binIdxOf_lt inp (centerBBoxOf inp prim it.begin_ it.end_)
    (inp.centers (partPrim inp prim it k)) (chosenAxis inp prim it) hbc
  have hmem : binIdxOf inp (centerBBoxOf inp prim it.begin_ it.end_)
      (inp.centers (partPrim inp prim it k)) (chosenAxis inp prim it)
      ∈ List.range' (chosenPair inp prim it).2
          (inp.bin_count - (chosenPair inp prim it).2) := by
    rw [List.mem_range'_1]
    omega
  have hc1 : contains (rightChildBox inp prim it)
      ((binsFor inp prim (chosenAxis inp prim it) it.begin_ it.end_
          (binIdxOf inp (centerBBoxOf inp prim it.begin_ it.end_))
          (binIdxOf inp (centerBBoxOf inp prim it.begin_ it.end_)
            (inp.centers (partPrim inp prim it k)) (chosenAxis inp prim it))).1) :=
    fold_bins_contains_mem _ hmem
  have hc2 : contains
      ((binsFor inp prim (chosenAxis inp prim it) it.begin_ it.end_
          (binIdxOf inp (centerBBoxOf inp prim it.begin_ it.end_))
          (binIdxOf inp (centerBBoxOf inp prim it.begin_ it.end_)
            (inp.centers (partPrim inp prim it k)) (chosenAxis inp prim it))).1)
      (inp.bboxes (partPrim inp prim it k)) := by
    rw [hveq]
    exact binBox_contains hi1 hi2
  exact contains_trans hc1 hc2

theorem pendingIdx_cons (it : WorkItem) (l : List WorkItem) :
    pendingIdx (it :: l) = it.node_index :: pendingIdx l := rfl

/-- Settling the head work item as a leaf preserves the invariant, whether or
not the slice was partitioned first (`stp` is the intermediate state: same
nodes and counter as `st`, primitives unchanged outside the item's range and
drawn from the old slice inside it). -/
theorem Inv_leaf {inp : Input} {N : ℕ} {st : BvhState} {item : WorkItem}
    {rest : List WorkItem} (hinv : Inv inp N st (item :: rest)) (stp : BvhState)
    (hn : stp.nodes = st.nodes) (hc : stp.node_count = st.node_count)
    (hpo : ∀ k, k < item.begin_ ∨ item.end_ ≤ k →
      stp.primitive_indices k = st.primitive_indices k)
    (hpv : ∀ k, item.begin_ ≤ k → k < item.end_ →
      stp.primitive_indices k ∈ rangeList st.primitive_indices item.begin_ item.end_) :
    Inv inp N (leafResult stp item) rest := by
  have hmem0 : item ∈ item :: rest := List.mem_cons_self item rest
  have hrng := hinv.pend_rng item hmem0
  have hidx := hinv.pend_lt item hmem0
  have hnodup := hinv.pend_nodup
  rw [pendingIdx_cons] at hnodup
  have hni : item.node_index ∉ pendingIdx rest := (List.nodup_cons.mp hnodup).1
  have hndr : (pendingIdx rest).Nodup := (List.nodup_cons.mp hnodup).2
  have hdisj : ∀ jt ∈ rest, rangesDisjoint item jt :=
    (List.pairwise_cons.mp hinv.pend_disj).1
  have hdr : rest.Pairwise rangesDisjoint := (List.pairwise_cons.mp hinv.pend_disj).2
  have hnodes : ∀ j, j ≠ item.node_index → (leafResult stp item).nodes j = st.nodes j := by
    intro j hj
    rw [leafResult_nodes_other stp item hj, hn]
  have hnself : (leafResult stp item).nodes item.node_index
      = make_leaf (st.nodes item.node_index) item.begin_ item.end_ := by
    rw [leafResult_nodes_self, hn]
  have hbbox : ∀ j, (((leafResult stp item).nodes j)).bbox = (st.nodes j).bbox := by
    intro j
    by_cases hj : j = item.node_index
    · subst hj
      rw [hnself]
      rfl
    · rw [hnodes j hj]
  have hnc : (leafResult stp item).node_count = st.node_count := by
    rw [leafResult_nc, hc]
  have hprimeq : ∀ k, (leafResult stp item).primitive_indices k
      = stp.primitive_indices k := fun k => rfl
  have hvin : ∀ k, item.begin_ ≤ k → k < item.end_ → ∃ i0, item.begin_ ≤ i0
      ∧ i0 < item.end_ ∧ stp.primitive_indices k = st.primitive_indices i0 := by
    intro k h1 h2
    obtain ⟨i0, a1, a2, a3⟩ := mem_rangeList.mp (hpv k h1 h2)
    exact ⟨i0, a1, a2, a3⟩
  refine ⟨?_, ?_, ?_, ?_, ?_, ?_, hndr, hdr, ?_⟩
  · intro i hi
    rw [hnc] at hi
    rw [hbbox]
    exact hinv.hwf i hi
  · intro k hk
    rw [hprimeq]
    by_cases hin : item.begin_ ≤ k ∧ k < item.end_
    · obtain ⟨i0, a1, a2, a3⟩ := hvin k hin.1 hin.2
      rw [a3]
      exact hinv.hval i0 (by omega)
    · rw [hpo k (by omega)]
      exact hinv.hval k hk
  · intro it hit
    rw [hnc]
    exact hinv.pend_lt it (List.mem_cons_of_mem _ hit)
  · intro it hit
    exact hinv.pend_rng it (List.mem_cons_of_mem _ hit)
  · intro it hit k h1 h2
    have hne : it.node_index ≠ item.node_index := by
      intro heq
      exact hni (heq ▸ (List.mem_map_of_mem _ hit))
    rw [hnodes it.node_index hne, hprimeq]
    have hpk : stp.primitive_indices k = st.primitive_indices k := by
      refine hpo k ?_
      rcases hdisj it hit with hd | hd
      · right
        omega
      · left
        omega
    rw [hpk]
    exact hinv.pend_box it (List.mem_cons_of_mem _ hit) k h1 h2
  · intro it hit
    exact hinv.pend_pos it (List.mem_cons_of_mem _ hit)
  · intro i hi hnp
    rw [hnc] at hi
    by_cases hii : i = item.node_index
    · subst hii
      have f1 : ((leafResult stp item).nodes item.node_index).is_leaf = true := by
        rw [hnself]
        rfl
      have f2 : ((leafResult stp item).nodes item.node_index).first_child_or_primitive
          = item.begin_ := by
        rw [hnself]
        rfl
      have f3 : ((leafResult stp item).nodes item.node_index).primitive_count
          = item.end_ - item.begin_ := by
        rw [hnself]
        rfl
      refine Or.inl ⟨f1, ?_, ?_, ?_, ?_⟩
      · rw [f2, f3]
        omega
      · rw [f2, f3]
        rcases hinv.pend_pos item hmem0 with hp | hp
        · left
          unfold WorkItem.work_size at hp
          omega
        · right
          omega
      · intro k hk1 hk2
        rw [f2] at hk1
        rw [f2, f3] at hk2
        have hk2b : k < item.end_ := by omega
        obtain ⟨i0, a1, a2, a3⟩ := hvin k hk1 hk2b
        rw [hbbox, hprimeq, a3]
        exact hinv.pend_box item hmem0 i0 a1 a2
      · intro jt hjt
        rw [f2, f3]
        rcases hdisj jt hjt with hd | hd
        · right
          omega
        · left
          omega
    · have hnpold : i ∉ pendingIdx (item :: rest) := by
        rw [pendingIdx_cons]
        intro hmem
        rcases List.mem_cons.mp hmem with hq | hq
        · exact hii hq
        · exact hnp hq
      rcases hinv.settled i hi hnpold with ⟨l1, l2, l3, l4, l5⟩ | ⟨m1, m2, m3, m4, m5⟩
      · refine Or.inl ?_
        rw [hnodes i hii]
        refine ⟨l1, l2, l3, ?_, ?_⟩
        · intro k hk1 hk2
          rw [hprimeq]
          have hpk : stp.primitive_indices k = st.primitive_indices k := by
            refine hpo k ?_
            rcases l5 item hmem0 with hd | hd
            · right
              omega
            · left
              omega
          rw [hpk]
          exact l4 k hk1 hk2
        · intro jt hjt
          exact l5 jt (List.mem_cons_of_mem _ hjt)
      · refine Or.inr ?_
        rw [hnodes i hii]
        refine ⟨m1, m2, by rw [hnc]; exact m3, ?_, ?_⟩
        · rw [hbbox]
          exact m4
        · rw [hbbox]
          exact m5

/-- Splitting the head work item preserves the invariant: the children inherit
the partitioned halves of the range, their boxes are the half-unions of the
bins, and the parent settles as an internal node containing both. -/
theorem Inv_split {inp : Input} {N : ℕ} {st : BvhState} {item : WorkItem}
    {rest : List WorkItem} (hbc : 1 ≤ inp.bin_count)
    (hinv : Inv inp N st (item :: rest)) ( _hws : 2 ≤ item.work_size)
    (hbr1 : item.begin_ < beginRightOf inp st.primitive_indices item)
    (hbr2 : beginRightOf inp st.primitive_indices item < item.end_) :
    Inv inp N (splitResult inp st item)
      (leftItemOf inp st item :: rightItemOf inp st item :: rest) := by
  have hmem0 : item ∈ item :: rest := List.mem_cons_self item rest
  have hrng := hinv.pend_rng item hmem0
  have hbe : item.begin_ ≤ item.end_ := hrng.1
  have hidx := hinv.pend_lt item hmem0
  have hne1 : item.node_index ≠ st.node_count := by omega
  have hne2 : item.node_index ≠ st.node_count + 1 := by omega
  have hnodup := hinv.pend_nodup
  rw [pendingIdx_cons] at hnodup
  have hni : item.node_index ∉ pendingIdx rest := (List.nodup_cons.mp hnodup).1
  have hndr : (pendingIdx rest).Nodup := (List.nodup_cons.mp hnodup).2
  have hdisj : ∀ jt ∈ rest, rangesDisjoint item jt :=
    (List.pairwise_cons.mp hinv.pend_disj).1
  have hdr : rest.Pairwise rangesDisjoint := (List.pairwise_cons.mp hinv.pend_disj).2
  have hpendlt : ∀ x ∈ pendingIdx rest, x < st.node_count := by
    intro x hx
    obtain ⟨jt, hjt, rfl⟩ := List.mem_map.mp hx
    exact hinv.pend_lt jt (List.mem_cons_of_mem _ hjt)
  have hbfr : ∀ j, j ≠ st.node_count → j ≠ st.node_count + 1 →
      ((splitResult inp st item).nodes j).bbox = (st.nodes j).bbox := by
    intro j hj1 hj2
    by_cases hj : j = item.node_index
    · subst hj
      exact splitResult_parent_bbox inp st item hj1 hj2
    · rw [splitResult_nodes_other inp st item hj hj1 hj2]
  have ea1 : (leftItemOf inp st item).begin_ = item.begin_ := rfl
  have ea2 : (leftItemOf inp st item).end_
      = beginRightOf inp st.primitive_indices item := rfl
  have eb1 : (rightItemOf inp st item).begin_
      = beginRightOf inp st.primitive_indices item := rfl
  have eb2 : (rightItemOf inp st item).end_ = item.end_ := rfl
  have hvin : ∀ k, item.begin_ ≤ k → k < item.end_ → ∃ i0, item.begin_ ≤ i0
      ∧ i0 < item.end_
      ∧ partPrim inp st.primitive_indices item k = st.primitive_indices i0 := by
    intro k h1 h2
    exact mem_rangeList.mp (partPrim_mem hbe h1 h2)
  refine ⟨?_, ?_, ?_, ?_, ?_, ?_, ?_, ?_, ?_⟩
  · intro i hi
    rw [splitResult_nc] at hi
    by_cases hi1 : i = st.node_count
    · subst hi1
      rw [splitResult_left_bbox]
      exact fold_bins_WFB _ _
    · by_cases hi2 : i = st.node_count + 1
      · subst hi2
        rw [splitResult_right_bbox]
        exact fold_bins_WFB _ _
      · rw [hbfr i hi1 hi2]
        exact hinv.hwf i (by omega)
  · intro k hk
    rw [splitResult_prim]
    by_cases hin : item.begin_ ≤ k ∧ k < item.end_
    · obtain ⟨i0, a1, a2, a3⟩ := hvin k hin.1 hin.2
      rw [a3]
      exact hinv.hval i0 (by omega)
    · rw [partPrim_out hbe (by omega)]
      exact hinv.hval k hk
  · intro it hit
    rw [splitResult_nc]
    rcases List.mem_cons.mp hit with hq | hq
    · subst hq
      show st.node_count < st.node_count + 2
      omega
    · rcases List.mem_cons.mp hq with hq2 | hq2
      · subst hq2
        show st.node_count + 1 < st.node_count + 2
        omega
      · have := hinv.pend_lt it (List.mem_cons_of_mem _ hq2)
        omega
  · intro it hit
    rcases List.mem_cons.mp hit with hq | hq
    · subst hq
      rw [ea1, ea2]
      omega
    · rcases List.mem_cons.mp hq with hq2 | hq2
      · subst hq2
        rw [eb1, eb2]
        omega
      · exact hinv.pend_rng it (List.mem_cons_of_mem _ hq2)
  · intro it hit k h1 h2
    rcases List.mem_cons.mp hit with hq | hq
    · subst hq
      rw [ea1] at h1
      rw [ea2] at h2
      have hnn : (leftItemOf inp st item).node_index = st.node_count := rfl
      rw [hnn, splitResult_left_bbox, splitResult_prim]
      exact leftChildBox_contains hbe h1 h2
    · rcases List.mem_cons.mp hq with hq2 | hq2
      · subst hq2
        rw [eb1] at h1
        rw [eb2] at h2
        have hnn : (rightItemOf inp st item).node_index = st.node_count + 1 := rfl
        rw [hnn, splitResult_right_bbox, splitResult_prim]
        exact rightChildBox_contains hbc hbe h1 h2
      · have hne : it.node_index ≠ item.node_index := by
          intro heq
          exact hni (heq ▸ (List.mem_map_of_mem _ hq2))
        have hlt := hinv.pend_lt it (List.mem_cons_of_mem _ hq2)
        rw [splitResult_nodes_other inp st item hne (by omega) (by omega),
          splitResult_prim]
        have hpk : partPrim inp st.primitive_indices item k = st.primitive_indices k := by
          refine partPrim_out hbe ?_
          rcases hdisj it hq2 with hd | hd
          · right
            omega
          · left
            omega
        rw [hpk]
        exact hinv.pend_box it (List.mem_cons_of_mem _ hq2) k h1 h2
  · intro it hit
    rcases List.mem_cons.mp hit with hq | hq
    · subst hq
      left
      have hwseq : (leftItemOf inp st item).work_size
          = beginRightOf inp st.primitive_indices item - item.begin_ := rfl
      omega
    · rcases List.mem_cons.mp hq with hq2 | hq2
      · subst hq2
        left
        have hwseq : (rightItemOf inp st item).work_size
            = item.end_ - beginRightOf inp st.primitive_indices item := rfl
        omega
      · exact hinv.pend_pos it (List.mem_cons_of_mem _ hq2)
  · rw [pendingIdx_cons, pendingIdx_cons]
    refine List.nodup_cons.mpr ⟨?_, List.nodup_cons.mpr ⟨?_, hndr⟩⟩
    · intro hmem
      rcases List.mem_cons.mp hmem with hq | hq
      · have hnn1 : (leftItemOf inp st item).node_index = st.node_count := rfl
        have hnn2 : (rightItemOf inp st item).node_index = st.node_count + 1 := rfl
        omega
      · have := hpendlt _ hq
        have hnn1 : (leftItemOf inp st item).node_index = st.node_count := rfl
        omega
    · intro hmem
      have := hpendlt _ hmem
      have hnn2 : (rightItemOf inp st item).node_index = st.node_count + 1 := rfl
      omega
  · refine List.pairwise_cons.mpr ⟨?_, List.pairwise_cons.mpr ⟨?_, hdr⟩⟩
    · intro jt hjt
      rcases List.mem_cons.mp hjt with hq | hq
      · subst hq
        left
        rw [ea2, eb1]
      · rcases hdisj jt hq with hd | hd
        · left
          rw [ea2]
          omega
        · right
          rw [ea1]
          omega
    · intro jt hjt
      rcases hdisj jt hjt with hd | hd
      · left
        rw [eb2]
        omega
      · right
        rw [eb1]
        omega
  · intro i hi hnp
    rw [splitResult_nc] at hi
    rw [pendingIdx_cons, pendingIdx_cons] at hnp
    have hnp1 : i ≠ (leftItemOf inp st item).node_index := fun hq =>
      hnp (hq ▸ List.mem_cons_self _ _)
    have hnp2 : i ≠ (rightItemOf inp st item).node_index := fun hq =>
      hnp (List.mem_cons.mpr (Or.inr (hq ▸ List.mem_cons_self _ _)))
    have hnpr : i ∉ pendingIdx rest := fun hq =>
      hnp (List.mem_cons.mpr (Or.inr (List.mem_cons.mpr (Or.inr hq))))
    have hinc1 : i ≠ st.node_count := hnp1
    have hinc2 : i ≠ st.node_count + 1 := hnp2
    have hilt : i < st.node_count := by omega
    by_cases hii : i = item.node_index
    · subst hii
      have hpar := splitResult_nodes_parent inp st item hne1 hne2
      have g1 : ((splitResult inp st item).nodes item.node_index).is_leaf = false := by
        rw [hpar]
      have g2 : ((splitResult inp st item).nodes item.node_index).primitive_count = 0 := by
        rw [hpar]
      have g3 : ((splitResult inp st item).nodes
          item.node_index).first_child_or_primitive = st.node_count := by
        rw [hpar]
      have hcc := parent_contains_children
        (hinv.hwf item.node_index hidx) (hinv.pend_box item hmem0)
      refine Or.inr ⟨g1, g2, ?_, ?_, ?_⟩
      · rw [g3, splitResult_nc]
        omega
      · rw [g3, splitResult_parent_bbox inp st item hne1 hne2, splitResult_left_bbox]
        exact hcc.1
      · rw [g3, splitResult_parent_bbox inp st item hne1 hne2, splitResult_right_bbox]
        exact hcc.2
    · have hnpold : i ∉ pendingIdx (item :: rest) := by
        rw [pendingIdx_cons]
        intro hmem
        rcases List.mem_cons.mp hmem with hq | hq
        · exact hii hq
        · exact hnpr hq
      have hfr : (splitResult inp st item).nodes i = st.nodes i :=
        splitResult_nodes_other inp st item hii hinc1 hinc2
      rcases hinv.settled i hilt hnpold with ⟨l1, l2, l3, l4, l5⟩ | ⟨m1, m2, m3, m4, m5⟩
      · refine Or.inl ?_
        rw [hfr]
        refine ⟨l1, l2, l3, ?_, ?_⟩
        · intro k hk1 hk2
          rw [splitResult_prim]
          have hpk : partPrim inp st.primitive_indices item k
              = st.primitive_indices k := by
            refine partPrim_out hbe ?_
            rcases l5 item hmem0 with hd | hd
            · right
              omega
            · left
              omega
          rw [hpk]
          exact l4 k hk1 hk2
        · intro jt hjt
          rcases List.mem_cons.mp hjt with hq | hq
          · subst hq
            rcases l5 item hmem0 with hd | hd
            · left
              rw [ea2]
              omega
            · right
              rw [ea1]
              omega
          · rcases List.mem_cons.mp hq with hq2 | hq2
            · subst hq2
              rcases l5 item hmem0 with hd | hd
              · left
                rw [eb2]
                omega
              · right
                rw [eb1]
                omega
            · exact l5 jt (List.mem_cons_of_mem _ hq2)
      · refine Or.inr ?_
        rw [hfr]
        have hch1 : (st.nodes i).first_child_or_primitive ≠ st.node_count := by omega
        have hch1b : (st.nodes i).first_child_or_primitive ≠ st.node_count + 1 := by omega
        have hch2 : (st.nodes i).first_child_or_primitive + 1 ≠ st.node_count := by omega
        have hch2b : (st.nodes i).first_child_or_primitive + 1 ≠ st.node_count + 1 := by
          omega
        refine ⟨m1, m2, ?_, ?_, ?_⟩
        · rw [splitResult_nc]
          omega
        · rw [hbfr _ hch1 hch1b]
          exact m4
        · rw [hbfr _ hch2 hch2b]
          exact m5

/-- The state set up by the top-level build satisfies the invariant with the
single root work item. -/
theorem Inv_init (inp : Input) (N : ℕ) (ninit : ℕ → Node) (pinit : ℕ → ℕ) :
    Inv inp N (initState inp N ninit pinit) [rootItem N] := by
  have hnc : (initState inp N ninit pinit).node_count = 1 := rfl
  have hb : ((initState inp N ninit pinit).nodes 0).bbox = rootBoxOf inp N := by
    simp [initState]
  refine ⟨?_, ?_, ?_, ?_, ?_, ?_, ?_, ?_, ?_⟩
  · intro i hi
    rw [hnc] at hi
    have hi0 : i = 0 := by omega
    subst hi0
    rw [hb]
    exact WFB_unionFold _
  · intro k hk
    show (if k < N then k else pinit k) < N
    rw [if_pos hk]
    exact hk
  · intro it hit
    rcases List.mem_cons.mp hit with hq | hq
    · subst hq
      rw [hnc]
      show (0:ℕ) < 1
      omega
    · cases hq
  · intro it hit
    rcases List.mem_cons.mp hit with hq | hq
    · subst hq
      exact ⟨Nat.zero_le _, le_refl _⟩
    · cases hq
  · intro it hit k h1 h2
    rcases List.mem_cons.mp hit with hq | hq
    · subst hq
      have h2b : k < N := h2
      have hpk : (initState inp N ninit pinit).primitive_indices k = k := by
        show (if k < N then k else pinit k) = k
        rw [if_pos h2b]
      rw [hpk]
      show contains ((initState inp N ninit pinit).nodes 0).bbox (inp.bboxes k)
      rw [hb]
      exact foldl_extend_contains_mem
        (List.mem_map_of_mem inp.bboxes (List.mem_range.mpr h2b)) _
    · cases hq
  · intro it hit
    rcases List.mem_cons.mp hit with hq | hq
    · subst hq
      right
      exact ⟨rfl, rfl⟩
    · cases hq
  · simp [pendingIdx, rootItem]
  · exact List.pairwise_singleton _ _
  · intro i hi hnp
    rw [hnc] at hi
    exfalso
    apply hnp
    have hi0 : i = 0 := by omega
    subst hi0
    simp [pendingIdx, rootItem]

/-- Draining the work list preserves the invariant to the final state. -/
theorem Inv_loop (inp : Input) (N : ℕ) (hbc : 1 ≤ inp.bin_count) :
    ∀ (fuel : ℕ) (st : BvhState) (items : List WorkItem) (final : BvhState),
    Inv inp N st items → buildLoopF inp fuel st items = some final →
    Inv inp N final [] := by
  intro fuel
  induction fuel with
  | zero =>
    intro st items final hinv heq
    cases items with
    | nil =>
      have hst : st = final := by simpa [buildLoopF] using heq
      subst hst
      exact hinv
    | cons a t =>
      simp [buildLoopF] at heq
  | succ n ih =>
    intro st items final hinv heq
    cases items with
    | nil =>
      have hst : st = final := by simpa [buildLoopF] using heq
      subst hst
      exact hinv
    | cons item rest =>
      rcases hbs : buildStep inp st item with ⟨st1, res⟩
      cases res with
      | none =>
        have hred : buildLoopF inp (n + 1) st (item :: rest)
            = buildLoopF inp n st1 rest := by
          simp only [buildLoopF]
          rw [hbs]
        rw [hred] at heq
        rcases buildStep_shape inp st item with hsh | ⟨hws, hsh⟩ | ⟨hws, hsh⟩
        · rw [hbs] at hsh
          injection hsh with h1 h2
          have hinv1 : Inv inp N st1 rest := by
            rw [h1]
            refine Inv_leaf hinv st rfl rfl (fun k hk => rfl) ?_
            intro k h1b h2b
            exact mem_rangeList.mpr ⟨k, h1b, h2b, rfl⟩
          exact ih _ _ _ hinv1 heq
        · rw [hbs] at hsh
          injection hsh with h1 h2
          have hbe : item.begin_ ≤ item.end_ := by
            rw [ws_iff] at hws
            omega
          have hinv1 : Inv inp N st1 rest := by
            rw [h1]
            refine Inv_leaf hinv (partitionedState inp st item) rfl rfl ?_ ?_
            · intro k hk
              show partPrim inp st.primitive_indices item k = st.primitive_indices k
              exact partPrim_out hbe hk
            · intro k h1b h2b
              show partPrim inp st.primitive_indices item k
                  ∈ rangeList st.primitive_indices item.begin_ item.end_
              exact partPrim_mem hbe h1b h2b
          exact ih _ _ _ hinv1 heq
        · rw [hbs] at hsh
          simp at hsh
      | some ab =>
        rcases ab with ⟨a, b⟩
        have hred : buildLoopF inp (n + 1) st (item :: rest)
            = buildLoopF inp n st1 (a :: b :: rest) := by
          simp only [buildLoopF]
          rw [hbs]
        rw [hred] at heq
        obtain ⟨hws, _, _, _, h5, h6, ha, hb2, hst⟩ := buildStep_some_inv hbs
        subst ha
        subst hb2
        subst hst
        exact ih _ _ _ (Inv_split hbc hinv hws h5 h6) heq

/-- C5: in the finished tree every internal node's bounding box contains the
bounding boxes of both of its children (the half-unions of the bin boxes
written at the split), and every leaf node's bounding box contains the bounding
boxes of all primitives in its range; the build also terminates
(`isSome`). -/
theorem claim_C5 (inp : Input) (N : ℕ) (ninit : ℕ → Node) (pinit : ℕ → ℕ)
    (hbc : 1 ≤ inp.bin_count) :
    (buildBvh inp N ninit pinit).isSome = true
    ∧ ∀ final, buildBvh inp N ninit pinit = some final →
      ∀ i, i < final.node_count →
        ((final.nodes i).is_leaf = true →
          ∀ k, (final.nodes i).first_child_or_primitive ≤ k →
            k < (final.nodes i).first_child_or_primitive
                + (final.nodes i).primitive_count →
            contains ((final.nodes i).bbox) (inp.bboxes (final.primitive_indices k)))
        ∧ ((final.nodes i).is_leaf = false →
          contains ((final.nodes i).bbox)
              ((final.nodes ((final.nodes i).first_child_or_primitive)).bbox)
            ∧ contains ((final.nodes i).bbox)
              ((final.nodes ((final.nodes i).first_child_or_primitive + 1)).bbox)) := by
  refine ⟨buildLoopF_total inp _ _ _ (le_refl _), ?_⟩
  intro final hfin i hi
  have hfe := Inv_loop inp N hbc _ _ _ _ (Inv_init inp N ninit pinit) hfin
  have hset := hfe.settled i hi (by simp [pendingIdx])
  constructor
  · intro hl k h1 h2
    rcases hset with ⟨_, _, _, l4, _⟩ | ⟨m1, _⟩
    · exact l4 k h1 h2
    · simp [hl] at m1
  · intro hl
    rcases hset with ⟨l1, _⟩ | ⟨_, _, _, m4, m5⟩
    · simp [hl] at l1
    · exact ⟨m4, m5⟩

theorem rangeList_perm_patch {f g : ℕ → ℕ} {b e n : ℕ} (hbe : b ≤ e) (heN : e ≤ n)
    (hout : ∀ k, k < b ∨ e ≤ k → g k = f k)
    (hmid : (rangeList g b e).Perm (rangeList f b e)) :
    (rangeList g 0 n).Perm (rangeList f 0 n) := by
  have hsg1 : rangeList g 0 n = rangeList g 0 b ++ rangeList g b n :=
    rangeList_split (Nat.zero_le b) (by omega)
  have hsg2 : rangeList g b n = rangeList g b e ++ rangeList g e n :=
    rangeList_split hbe heN
  have hsf1 : rangeList f 0 n = rangeList f 0 b ++ rangeList f b n :=
    rangeList_split (Nat.zero_le b) (by omega)
  have hsf2 : rangeList f b n = rangeList f b e ++ rangeList f e n :=
    rangeList_split hbe heN
  rw [hsg1, hsg2, hsf1, hsf2]
  have he1 : rangeList g 0 b = rangeList f 0 b :=
    rangeList_congr (fun k hk1 hk2 => hout k (Or.inl hk2))
  have he2 : rangeList g e n = rangeList f e n :=
    rangeList_congr (fun k hk1 hk2 => hout k (Or.inr hk1))
  rw [he1, he2]
  exact (List.Perm.refl _).append (hmid.append (List.Perm.refl _))

/-- One build step permutes the whole primitive-index prefix `[0, n)` when the
item's range lies inside it. -/
theorem buildStep_global_perm (inp : Input) (n : ℕ) (st : BvhState) (item : WorkItem)
    (hN : item.end_ ≤ n) :
    (rangeList ((buildStep inp st item).1).primitive_indices 0 n).Perm
      (rangeList st.primitive_indices 0 n) := by
  rcases buildStep_shape inp st item with h | ⟨hws, h⟩ | ⟨hws, h⟩
  · rw [h]
    exact List.Perm.refl _
  · rw [h]
    have hbe : item.begin_ ≤ item.end_ := by
      rw [ws_iff] at hws
      omega
    refine rangeList_perm_patch hbe hN ?_ ?_
    · intro k hk
      show partPrim inp st.primitive_indices item k = st.primitive_indices k
      exact partPrim_out hbe hk
    · show (rangeList (partPrim inp st.primitive_indices item) item.begin_
        item.end_).Perm _
      exact partPrim_perm hbe
  · rw [h]
    have hbe : item.begin_ ≤ item.end_ := by
      rw [ws_iff] at hws
      omega
    refine rangeList_perm_patch hbe hN ?_ ?_
    · intro k hk
      show partPrim inp st.primitive_indices item k = st.primitive_indices k
      exact partPrim_out hbe hk
    · show (rangeList (partPrim inp st.primitive_indices item) item.begin_
        item.end_).Perm _
      exact partPrim_perm hbe

/-- Draining the loop permutes the primitive-index prefix `[0, n)` when all
items' ranges lie inside it. -/
theorem loop_perm (inp : Input) (n : ℕ) : ∀ (fuel : ℕ) (st : BvhState)
    (items : List WorkItem) (final : BvhState),
    (∀ it ∈ items, it.end_ ≤ n) → buildLoopF inp fuel st items = some final →
    (rangeList final.primitive_indices 0 n).Perm (rangeList st.primitive_indices 0 n) := by
  intro fuel
  induction fuel with
  | zero =>
    intro st items final hend heq
    cases items with
    | nil =>
      have hst : st = final := by simpa [buildLoopF] using heq
      subst hst
      exact List.Perm.refl _
    | cons a t =>
      simp [buildLoopF] at heq
  | succ m ih =>
    intro st items final hend heq
    cases items with
    | nil =>
      have hst : st = final := by simpa [buildLoopF] using heq
      subst hst
      exact List.Perm.refl _
    | cons item rest =>
      rcases hbs : buildStep inp st item with ⟨st1, res⟩
      have hperm1 : (rangeList st1.primitive_indices 0 n).Perm
          (rangeList st.primitive_indices 0 n) := by
        have := buildStep_global_perm inp n st item
          (hend item (List.mem_cons_self _ _))
        rw [hbs] at this
        exact this
      cases res with
      | none =>
        have hred : buildLoopF inp (m + 1) st (item :: rest)
            = buildLoopF inp m st1 rest := by
          simp only [buildLoopF]
          rw [hbs]
        rw [hred] at heq
        exact (ih _ _ _ (fun it hit => hend it (List.mem_cons_of_mem _ hit)) heq).trans
          hperm1
      | some ab =>
        rcases ab with ⟨a, b⟩
        have hred : buildLoopF inp (m + 1) st (item :: rest)
            = buildLoopF inp m st1 (a :: b :: rest) := by
          simp only [buildLoopF]
          rw [hbs]
        rw [hred] at heq
        obtain ⟨hws, _, _, _, h5, h6, ha, hb2, _⟩ := buildStep_some_inv hbs
        have hende : item.end_ ≤ n := hend item (List.mem_cons_self _ _)
        have hendnew : ∀ it ∈ (a :: b :: rest), it.end_ ≤ n := by
          intro it hit
          rcases List.mem_cons.mp hit with hq | hq
          · subst hq
            rw [ha]
            show beginRightOf inp st.primitive_indices item ≤ n
            omega
          · rcases List.mem_cons.mp hq with hq2 | hq2
            · subst hq2
              rw [hb2]
              exact hende
            · exact hend it (List.mem_cons_of_mem _ hq2)
        exact (ih _ _ _ hendnew heq).trans hperm1

/-- C4: the top-level build initializes the primitive-index array to the
identity on `[0, N)`; every build step writes only inside its own
`[begin, end)` and permutes that slice in place; and hence the finished array
is a permutation of `[0, N)`. -/
theorem claim_C4 (inp : Input) (N : ℕ) (ninit : ℕ → Node) (pinit : ℕ → ℕ) :
    (∀ k, k < N → (initState inp N ninit pinit).primitive_indices k = k)
    ∧ (∀ (st : BvhState) (item : WorkItem) (k : ℕ),
        k < item.begin_ ∨ item.end_ ≤ k →
        ((buildStep inp st item).1).primitive_indices k = st.primitive_indices k)
    ∧ (∀ (st : BvhState) (item : WorkItem),
        (rangeList ((buildStep inp st item).1).primitive_indices item.begin_
          item.end_).Perm (rangeList st.primitive_indices item.begin_ item.end_))
    ∧ (∀ final, buildBvh inp N ninit pinit = some final →
        (rangeList final.primitive_indices 0 N).Perm (List.range N)) := by
  refine ⟨?_, ?_, ?_, ?_⟩
  · intro k hk
    show (if k < N then k else pinit k) = k
    rw [if_pos hk]
  · intro st item k hk
    exact buildStep_prim_frame hk
  · intro st item
    exact buildStep_prim_perm inp st item
  · intro final hfin
    have hinit : rangeList (initState inp N ninit pinit).primitive_indices 0 N
        = List.range N := by
      unfold rangeList
      rw [Nat.sub_zero, ← List.range_eq_range']
      rw [show List.map (initState inp N ninit pinit).primitive_indices (List.range N)
          = List.map id (List.range N) from ?_, List.map_id]
      refine List.map_congr_left ?_
      intro k hk
      rw [List.mem_range] at hk
      show (if k < N then k else pinit k) = k
      rw [if_pos hk]
    have hperm := loop_perm inp N (loopFuel [rootItem N])
      (initState inp N ninit pinit) [rootItem N] final ?_ hfin
    · rw [hinit] at hperm
      exact hperm
    · intro it hit
      rcases List.mem_cons.mp hit with hq | hq
      · subst hq
        exact le_refl _
      · cases hq

/-- C9 (amended): `build` never splits a node whose range holds at most one
primitive, the build terminates, and — for every N ≥ 1 — every leaf of the
finished tree holds at least one primitive.  (For N = 0 the root itself becomes
a leaf holding zero primitives, which the original claim's "N ≥ 0" missed.) -/
theorem claim_C9 (inp : Input) (N : ℕ) (ninit : ℕ → Node) (pinit : ℕ → ℕ)
    (hbc : 1 ≤ inp.bin_count) (hN : 1 ≤ N) :
    (∀ (st : BvhState) (item : WorkItem), item.work_size ≤ 1 →
      (buildStep inp st item).2 = none)
    ∧ (buildBvh inp N ninit pinit).isSome = true
    ∧ ∀ final, buildBvh inp N ninit pinit = some final →
      ∀ i, i < final.node_count → (final.nodes i).is_leaf = true →
        1 ≤ (final.nodes i).primitive_count := by
  refine ⟨?_, buildLoopF_total inp _ _ _ (le_refl _), ?_⟩
  · intro st item h
    rw [buildStep_forced (Or.inl h)]
  · intro final hfin i hi hl
    have hfe := Inv_loop inp N hbc _ _ _ _ (Inv_init inp N ninit pinit) hfin
    rcases hfe.settled i hi (by simp [pendingIdx]) with ⟨_, _, l3, _, _⟩ | ⟨m1, _⟩
    · rcases l3 with l3 | l3
      · exact l3
      · omega
    · simp [hl] at m1

/-! ### Degenerate-input lemmas for the all-identical-primitives scenario -/
theorem foldl_extend_const_from (B : BBox) :
    ∀ (l : List BBox), (∀ x ∈ l, x = B) → l.foldl BBox.extend B = B := by
  intro l
  induction l with
  | nil => intro h; rfl
  | cons a t ih =>
    intro h
    rw [List.foldl_cons, h a (List.mem_cons_self _ _), extend_self]
    exact ih (fun x hx => h x (List.mem_cons_of_mem _ hx))

/-- A union of a nonempty list of copies of a well-formed box is that box. -/
theorem unionFold_const {B : BBox} (hW : WFB B) (l : List BBox)
    (hx : ∀ x ∈ l, x = B) (hne : l ≠ []) : unionFold l = B := by
  cases l with
  | nil => exact absurd rfl hne
  | cons a t =>
    show (a :: t).foldl BBox.extend BBox.empty0 = B
    rw [List.foldl_cons, hx a (List.mem_cons_self _ _), extend_empty0 hW]
    exact foldl_extend_const_from B t (fun x hxm => hx x (List.mem_cons_of_mem _ hxm))

/-- A centroid bounding box of a nonempty list of identical centroids is the
degenerate point box. -/
theorem foldl_extendP_const {c : Vec3} (hW : WFB (BBox.mk c c)) (g : ℕ → Vec3)
    (l : List ℕ) (hg : ∀ i ∈ l, g i = c) (hne : l ≠ []) :
    l.foldl (fun bb i => bb.extendP (g i)) BBox.empty0 = BBox.mk c c := by
  show l.foldl (fun bb i => bb.extend (BBox.mk (g i) (g i))) BBox.empty0 = BBox.mk c c
  rw [foldl_extend_map (fun i => BBox.mk (g i) (g i)) l BBox.empty0]
  refine unionFold_const hW _ ?_ ?_
  · intro x hxm
    rcases List.mem_map.mp hxm with ⟨i, hi, rfl⟩
    rw [hg i hi]
  · simp only [ne_eq, List.map_eq_nil_iff]
    exact hne

/-- With a degenerate (point) centroid bounding box, `bin_index` maps every
centroid to bin 0 on every axis: the scale vector is `0` in ℚ, so the affine
transform is constantly `0`. -/
theorem binIdxOf_degenerate (inp : Input) (c v : Vec3) (axis : ℕ) :
    binIdxOf inp (BBox.mk c c) v axis = 0 := by
  have hinv : (BBox.mk c c).diagonal.inv3.smul3 (inp.bin_count : Scalar)
      = Vec3.mk 0 0 0 := by
    simp [BBox.diagonal, Vec3.sub3, Vec3.inv3, Vec3.smul3]
  have hbase : (BBox.mk c c).min.neg3.mul3 (Vec3.mk 0 0 0) = Vec3.mk 0 0 0 := by
    simp [Vec3.neg3, Vec3.mul3]
  have hg : ∀ a : ℕ, (Vec3.mk 0 0 0).get a = 0 := by
    intro a
    rcases a with _ | _ | n
    · rfl
    · rfl
    · rfl
  show min (sizeT (multiply_add (v.get axis)
      (((BBox.mk c c).diagonal.inv3.smul3 (inp.bin_count : Scalar)).get axis)
      (((BBox.mk c c).min.neg3.mul3
        ((BBox.mk c c).diagonal.inv3.smul3 (inp.bin_count : Scalar))).get axis)))
    (inp.bin_count - 1) = 0
  rw [hinv, hbase, hg]
  simp [multiply_add, sizeT]

/-- If all bins right of bin 0 are empty, every cached right-sweep cost is 0. -/
theorem rightCosts_zero_aux (bins : ℕ → BBox × ℕ) :
    ∀ (l : List ℕ), (∀ i ∈ l, (bins i).2 = 0) →
    ∀ (acc : BBox × ℕ × (ℕ → Scalar)), acc.2.1 = 0 → (∀ k, acc.2.2 k = 0) →
    (l.foldl (rightStep bins) acc).2.1 = 0
      ∧ ∀ k, (l.foldl (rightStep bins) acc).2.2 k = 0 := by
  intro l
  induction l with
  | nil =>
    intro h acc h1 h2
    exact ⟨h1, h2⟩
  | cons a t ih =>
    intro h acc h1 h2
    rw [List.foldl_cons]
    refine ih (fun i hi => h i (List.mem_cons_of_mem _ hi)) _ ?_ ?_
    · show acc.2.1 + (bins a).2 = 0
      rw [h1, h a (List.mem_cons_self _ _)]
    · intro k
      show (if k = a then (acc.1.extend (bins a).1).half_area
          * ((acc.2.1 + (bins a).2 : ℕ) : Scalar) else acc.2.2 k) = 0
      by_cases hk : k = a
      · rw [if_pos hk, h1, h a (List.mem_cons_self _ _)]
        norm_num
      · rw [if_neg hk]
        exact h2 k

theorem rightCosts_all_empty (inp : Input) (bins : ℕ → BBox × ℕ)
    (h : ∀ i, 1 ≤ i → (bins i).2 = 0) (k : ℕ) : rightCosts inp bins k = 0 := by
  refine (rightCosts_zero_aux bins _ ?_ _ rfl (fun _ => rfl)).2 k
  intro i hi
  rw [List.mem_reverse] at hi
  have h2 := List.mem_range'_1.mp hi
  exact h i h2.1

theorem extend_empty0_right {b : BBox} (h : WFB b) : b.extend BBox.empty0 = b := by
  rw [extend_comm]
  exact extend_empty0 h

/-- Once the running left half is the whole (well-formed) box `B` with count
`cnt0` and every remaining bin is empty, the left sweep never changes its best
candidate: every later candidate repeats the same cost, and the update is
strict. -/
theorem sweep_const_aux (bins : ℕ → BBox × ℕ) (rc : ℕ → Scalar) (B : BBox) (cnt0 : ℕ)
    (hW : WFB B) (hrest : ∀ i, 1 ≤ i → bins i = (BBox.empty0, 0))
    (hrc : ∀ k, rc k = 0) :
    ∀ (l : List ℕ), (∀ i ∈ l, 1 ≤ i) → ∀ (best : Scalar × ℕ),
      (best = (B.half_area * (cnt0 : Scalar) + 0, 1) ∨
        (best.1 = scalarMax ∧ ¬ (B.half_area * (cnt0 : Scalar) + 0 < scalarMax))) →
    (l.foldl (sweepStep bins rc) (best, B, cnt0)).1 = best := by
  intro l
  induction l with
  | nil =>
    intro hl best hbest
    rfl
  | cons a t ih =>
    intro hl best hbest
    rw [List.foldl_cons]
    have hstep : sweepStep bins rc (best, B, cnt0) a = (best, B, cnt0) := by
      show (if (B.extend (bins a).1).half_area * ((cnt0 + (bins a).2 : ℕ) : Scalar)
            + rc (a + 1) < best.1
          then ((B.extend (bins a).1).half_area * ((cnt0 + (bins a).2 : ℕ) : Scalar)
            + rc (a + 1), a + 1)
          else best,
        B.extend (bins a).1, cnt0 + (bins a).2) = (best, B, cnt0)
      rw [hrest a (hl a (List.mem_cons_self _ _)), hrc]
      show (if (B.extend BBox.empty0).half_area * ((cnt0 + 0 : ℕ) : Scalar) + 0 < best.1
          then ((B.extend BBox.empty0).half_area * ((cnt0 + 0 : ℕ) : Scalar) + 0, a + 1)
          else best,
        B.extend BBox.empty0, cnt0 + 0) = (best, B, cnt0)
      rw [extend_empty0_right hW, Nat.add_zero]
      rcases hbest with hb | ⟨hb1, hb2⟩
      · rw [hb]
        rw [if_neg (lt_irrefl _)]
      · rw [hb1, if_neg hb2]
    rw [hstep]
    exact ih (fun i hi => hl i (List.mem_cons_of_mem _ hi)) best hbest

/-- The left sweep of `find_split` when bin 0 holds the box `B` with count
`cnt0` and every other bin is empty: the best candidate is boundary 1 with cost
`half_area(B) * cnt0` when that cost beats the `FLT_MAX` sentinel, and the
sentinel `(FLT_MAX, bin_count)` otherwise. -/
theorem sweep_const (bins : ℕ → BBox × ℕ) (rc : ℕ → Scalar) (B : BBox) (cnt0 bc : ℕ)
    (hW : WFB B) (h0 : bins 0 = (B, cnt0))
    (hrest : ∀ i, 1 ≤ i → bins i = (BBox.empty0, 0)) (hrc : ∀ k, rc k = 0)
    (m : ℕ) (hm : 1 ≤ m) :
    ((List.range m).foldl (sweepStep bins rc) ((scalarMax, bc), BBox.empty0, 0)).1
      = if B.half_area * (cnt0 : Scalar) + 0 < scalarMax
        then (B.half_area * (cnt0 : Scalar) + 0, 1) else (scalarMax, bc) := by
  obtain ⟨k, rfl⟩ : ∃ k, m = k + 1 := ⟨m - 1, by omega⟩
  have hr : List.range (k + 1) = 0 :: List.range' 1 k := by
    rw [List.range_eq_range']
    rfl
  rw [hr, List.foldl_cons]
  have hstep : sweepStep bins rc ((scalarMax, bc), BBox.empty0, 0) 0
      = (if B.half_area * (cnt0 : Scalar) + 0 < scalarMax
          then (B.half_area * (cnt0 : Scalar) + 0, 1) else (scalarMax, bc),
        B, cnt0) := by
    show (if (BBox.empty0.extend (bins 0).1).half_area * ((0 + (bins 0).2 : ℕ) : Scalar)
          + rc 1 < scalarMax
        then ((BBox.empty0.extend (bins 0).1).half_area * ((0 + (bins 0).2 : ℕ) : Scalar)
          + rc 1, 1)
        else (scalarMax, bc),
      BBox.empty0.extend (bins 0).1, 0 + (bins 0).2) = _
    rw [h0, hrc]
    show (if (BBox.empty0.extend B).half_area * ((0 + cnt0 : ℕ) : Scalar) + 0 < scalarMax
        then ((BBox.empty0.extend B).half_area * ((0 + cnt0 : ℕ) : Scalar) + 0, 1)
        else (scalarMax, bc),
      BBox.empty0.extend B, 0 + cnt0) = _
    rw [extend_empty0 hW, Nat.zero_add]
  rw [hstep]
  refine sweep_const_aux bins rc B cnt0 hW hrest hrc _ ?_ _ ?_
  · intro i hi
    exact (List.mem_range'_1.mp hi).1
  · by_cases hcst : B.half_area * (cnt0 : Scalar) + 0 < scalarMax
    · left
      rw [if_pos hcst]
    · right
      rw [if_neg hcst]
      exact ⟨rfl, hcst⟩

theorem buildLoopF_nil (inp : Input) (fuel : ℕ) (st : BvhState) :
    buildLoopF inp fuel st [] = some st := by
  cases fuel with
  | zero => rfl
  | succ n => rfl

/-- C8: with `N >= 2` primitives all sharing one bounding box `B` and one
centroid `c`, the centroid bounding box of the root is the degenerate point box
`[c, c]`, the per-node `bin_index` mapping sends every centroid to bin 0 on
every axis, the root step produces no split, and the finished tree is the
single root leaf holding all `N` primitives. -/
theorem claim_C8 (inp : Input) (N : ℕ) (ninit : ℕ → Node) (pinit : ℕ → ℕ)
    (B : BBox) (c : Vec3)
    (hN : 2 ≤ N) (hbc : 2 ≤ inp.bin_count)
    (hB : ∀ i, i < N → inp.bboxes i = B) (hc : ∀ i, i < N → inp.centers i = c)
    (hBW : WFB B) (hcW : WFB (BBox.mk c c)) :
    centerBBoxOf inp (initState inp N ninit pinit).primitive_indices 0 N = BBox.mk c c
    ∧ (∀ v axis, binIdxOf inp (centerBBoxOf inp (initState inp N ninit pinit).primitive_indices 0 N) v axis = 0)
    ∧ (buildStep inp (initState inp N ninit pinit) (rootItem N)).2 = none
    ∧ (buildBvh inp N ninit pinit).isSome = true
    ∧ ∀ final, buildBvh inp N ninit pinit = some final →
        final.node_count = 1
        ∧ (final.nodes 0).is_leaf = true
        ∧ (final.nodes 0).first_child_or_primitive = 0
        ∧ (final.nodes 0).primitive_count = N := by
  have hprim : ∀ k, k < N → (initState inp N ninit pinit).primitive_indices k = k := by
    intro k hk
    show (if k < N then k else pinit k) = k
    rw [if_pos hk]
  have hcb : centerBBoxOf inp (initState inp N ninit pinit).primitive_indices 0 N = BBox.mk c c := by
    unfold centerBBoxOf
    refine foldl_extendP_const hcW inp.centers _ ?_ ?_
    · intro i hi
      rcases mem_rangeList.mp hi with ⟨k, hk1, hk2, rfl⟩
      rw [hprim k hk2]
      exact hc k hk2
    · intro hnil
      have hlen := rangeList_length (initState inp N ninit pinit).primitive_indices 0 N
      rw [hnil] at hlen
      simp at hlen
      omega
  have hbin : ∀ v axis, binIdxOf inp (centerBBoxOf inp (initState inp N ninit pinit).primitive_indices 0 N) v axis = 0 := by
    intro v axis
    rw [hcb]
    exact binIdxOf_degenerate inp c v axis
  have hbins0 : ∀ axis,
      binsFor inp (initState inp N ninit pinit).primitive_indices axis 0 N (binIdxOf inp (centerBBoxOf inp (initState inp N ninit pinit).primitive_indices 0 N)) 0 = (B, N) := by
    intro axis
    obtain ⟨h1, h2⟩ := binsFor_char inp (initState inp N ninit pinit).primitive_indices axis 0 N
      (binIdxOf inp (centerBBoxOf inp (initState inp N ninit pinit).primitive_indices 0 N)) 0
    have hfilter : (List.range' 0 (N - 0)).filter
        (fun i => binIdxOf inp (centerBBoxOf inp (initState inp N ninit pinit).primitive_indices 0 N) (inp.centers ((initState inp N ninit pinit).primitive_indices i)) axis == 0)
        = List.range' 0 (N - 0) := by
      refine List.filter_eq_self.mpr ?_
      intro a ha
      rw [hbin]
      rfl
    rw [hfilter] at h1 h2
    have h1b : (binsFor inp (initState inp N ninit pinit).primitive_indices axis 0 N (binIdxOf inp (centerBBoxOf inp (initState inp N ninit pinit).primitive_indices 0 N)) 0).1
        = B := by
      rw [h1]
      refine unionFold_const hBW _ ?_ ?_
      · intro x hx
        rcases List.mem_map.mp hx with ⟨i, hi, rfl⟩
        have hi2 := List.mem_range'_1.mp hi
        have hiN : i < N := by omega
        rw [hprim i hiN]
        exact hB i hiN
      · simp only [ne_eq, List.map_eq_nil_iff]
        intro hnil
        have := congrArg List.length hnil
        rw [List.length_range'] at this
        simp at this
        omega
    have h2b : (binsFor inp (initState inp N ninit pinit).primitive_indices axis 0 N (binIdxOf inp (centerBBoxOf inp (initState inp N ninit pinit).primitive_indices 0 N)) 0).2
        = N := by
      rw [h2, List.length_range']
      omega
    rw [show binsFor inp (initState inp N ninit pinit).primitive_indices axis 0 N (binIdxOf inp (centerBBoxOf inp (initState inp N ninit pinit).primitive_indices 0 N)) 0
        = ((binsFor inp (initState inp N ninit pinit).primitive_indices axis 0 N (binIdxOf inp (centerBBoxOf inp (initState inp N ninit pinit).primitive_indices 0 N)) 0).1,
           (binsFor inp (initState inp N ninit pinit).primitive_indices axis 0 N (binIdxOf inp (centerBBoxOf inp (initState inp N ninit pinit).primitive_indices 0 N)) 0).2)
      from rfl, h1b, h2b]
  have hbinsj : ∀ axis j, 1 ≤ j →
      binsFor inp (initState inp N ninit pinit).primitive_indices axis 0 N (binIdxOf inp (centerBBoxOf inp (initState inp N ninit pinit).primitive_indices 0 N)) j
        = (BBox.empty0, 0) := by
    intro axis j hj
    obtain ⟨h1, h2⟩ := binsFor_char inp (initState inp N ninit pinit).primitive_indices axis 0 N
      (binIdxOf inp (centerBBoxOf inp (initState inp N ninit pinit).primitive_indices 0 N)) j
    have hfilter : (List.range' 0 (N - 0)).filter
        (fun i => binIdxOf inp (centerBBoxOf inp (initState inp N ninit pinit).primitive_indices 0 N) (inp.centers ((initState inp N ninit pinit).primitive_indices i)) axis == j)
        = [] := by
      refine List.filter_eq_nil_iff.mpr ?_
      intro a ha
      rw [hbin]
      simp
      omega
    rw [hfilter] at h1 h2
    simp only [List.map_nil, List.length_nil] at h1 h2
    rw [show binsFor inp (initState inp N ninit pinit).primitive_indices axis 0 N (binIdxOf inp (centerBBoxOf inp (initState inp N ninit pinit).primitive_indices 0 N)) j
        = ((binsFor inp (initState inp N ninit pinit).primitive_indices axis 0 N (binIdxOf inp (centerBBoxOf inp (initState inp N ninit pinit).primitive_indices 0 N)) j).1,
           (binsFor inp (initState inp N ninit pinit).primitive_indices axis 0 N (binIdxOf inp (centerBBoxOf inp (initState inp N ninit pinit).primitive_indices 0 N)) j).2)
      from rfl, h1, h2]
    rfl
  have hrcz : ∀ axis k,
      rightCosts inp (binsFor inp (initState inp N ninit pinit).primitive_indices axis 0 N (binIdxOf inp (centerBBoxOf inp (initState inp N ninit pinit).primitive_indices 0 N))) k
        = 0 := by
    intro axis k
    refine rightCosts_all_empty inp _ ?_ k
    intro i hi
    rw [hbinsj axis i hi]
  have hsplit : ∀ axis, splitOn inp (initState inp N ninit pinit).primitive_indices (rootItem N) axis
      = if B.half_area * (N : Scalar) + 0 < scalarMax
        then (B.half_area * (N : Scalar) + 0, 1) else (scalarMax, inp.bin_count) := by
    intro axis
    show ((List.range (inp.bin_count - 1)).foldl
        (sweepStep (binsFor inp (initState inp N ninit pinit).primitive_indices axis 0 N (binIdxOf inp (centerBBoxOf inp (initState inp N ninit pinit).primitive_indices 0 N)))
          (rightCosts inp
            (binsFor inp (initState inp N ninit pinit).primitive_indices axis 0 N (binIdxOf inp (centerBBoxOf inp (initState inp N ninit pinit).primitive_indices 0 N)))))
        ((scalarMax, inp.bin_count), BBox.empty0, 0)).1
      = if B.half_area * (N : Scalar) + 0 < scalarMax
        then (B.half_area * (N : Scalar) + 0, 1) else (scalarMax, inp.bin_count)
    exact sweep_const _ _ B N inp.bin_count hBW (hbins0 axis) (hbinsj axis) (hrcz axis)
      _ (by omega)
  have hax : chosenAxis inp (initState inp N ninit pinit).primitive_indices (rootItem N) = 0 := by
    unfold chosenAxis
    rw [hsplit 0, hsplit 1, hsplit 2]
    unfold bestAxis
    simp only [gt_iff_lt, lt_self_iff_false, if_false]
  have hpair : chosenPair inp (initState inp N ninit pinit).primitive_indices (rootItem N)
      = if B.half_area * (N : Scalar) + 0 < scalarMax
        then (B.half_area * (N : Scalar) + 0, 1) else (scalarMax, inp.bin_count) := by
    unfold chosenPair
    rw [hax, hsplit 0]
  have hmain : ∃ stp, buildStep inp (initState inp N ninit pinit) (rootItem N) = (leafResult stp (rootItem N), none)
      ∧ stp.nodes = ((initState inp N ninit pinit)).nodes ∧ stp.node_count = ((initState inp N ninit pinit)).node_count := by
    by_cases hmd : inp.max_depth ≤ 0
    · exact ⟨(initState inp N ninit pinit), buildStep_forced (Or.inr hmd), rfl, rfl⟩
    · have h1 : ¬ ((rootItem N).work_size ≤ 1 ∨ inp.max_depth ≤ (rootItem N).depth) := by
        rintro (h | h)
        · have hws : N - 0 ≤ 1 := h
          omega
        · exact hmd h
      by_cases hcst : B.half_area * (N : Scalar) + 0 < scalarMax
      · by_cases hth : (((initState inp N ninit pinit)).nodes (rootItem N).node_index).bbox.half_area *
            (((rootItem N).work_size : Scalar) - inp.traversal_cost)
            ≤ (chosenPair inp (initState inp N ninit pinit).primitive_indices (rootItem N)).1
        · exact ⟨(initState inp N ninit pinit), buildStep_costLeaf h1 (Or.inr hth), rfl, rfl⟩
        · have h2 : ¬ ((chosenPair inp (initState inp N ninit pinit).primitive_indices (rootItem N)).2 = inp.bin_count ∨
              (((initState inp N ninit pinit)).nodes (rootItem N).node_index).bbox.half_area *
                (((rootItem N).work_size : Scalar) - inp.traversal_cost)
                ≤ (chosenPair inp (initState inp N ninit pinit).primitive_indices (rootItem N)).1) := by
            rintro (h | h)
            · rw [hpair, if_pos hcst] at h
              have hone : (1:ℕ) = inp.bin_count := h
              omega
            · exact hth h
          have hbr : beginRightOf inp (initState inp N ninit pinit).primitive_indices (rootItem N) = N := by
            have hfe : (rangeList (initState inp N ninit pinit).primitive_indices 0 N).filter (partPred inp (initState inp N ninit pinit).primitive_indices (rootItem N))
                = rangeList (initState inp N ninit pinit).primitive_indices 0 N := by
              refine List.filter_eq_self.mpr ?_
              intro a ha
              have hpp : partPred inp (initState inp N ninit pinit).primitive_indices (rootItem N) a
                  = decide (binIdxOf inp (centerBBoxOf inp (initState inp N ninit pinit).primitive_indices 0 N) (inp.centers a)
                      (chosenAxis inp (initState inp N ninit pinit).primitive_indices (rootItem N))
                    < (chosenPair inp (initState inp N ninit pinit).primitive_indices (rootItem N)).2) := rfl
              rw [hpp, decide_eq_true_iff, hbin, hpair, if_pos hcst]
              exact Nat.one_pos
            show 0 + ((rangeList (initState inp N ninit pinit).primitive_indices 0 N).filter (partPred inp (initState inp N ninit pinit).primitive_indices (rootItem N))).length = N
            rw [hfe, rangeList_length]
            omega
          have h3 : ¬ ((rootItem N).begin_ < beginRightOf inp (initState inp N ninit pinit).primitive_indices (rootItem N) ∧
              beginRightOf inp (initState inp N ninit pinit).primitive_indices (rootItem N) < (rootItem N).end_) := by
            rintro ⟨ha, hb⟩
            rw [hbr] at hb
            have hb2 : N < N := hb
            omega
          exact ⟨partitionedState inp (initState inp N ninit pinit) (rootItem N),
            buildStep_guardLeaf h1 h2 h3, rfl, rfl⟩
      · have h2 : (chosenPair inp (initState inp N ninit pinit).primitive_indices (rootItem N)).2 = inp.bin_count ∨
            (((initState inp N ninit pinit)).nodes (rootItem N).node_index).bbox.half_area *
              (((rootItem N).work_size : Scalar) - inp.traversal_cost)
              ≤ (chosenPair inp (initState inp N ninit pinit).primitive_indices (rootItem N)).1 := by
          left
          rw [hpair, if_neg hcst]
        exact ⟨(initState inp N ninit pinit), buildStep_costLeaf h1 h2, rfl, rfl⟩
  obtain ⟨stp, hstep, hnodes, hnc⟩ := hmain
  have hf : loopFuel [rootItem N] = (4 * N - 2) + 1 := by
    simp [loopFuel, rootItem, WorkItem.work_size]
  have hbvh : buildBvh inp N ninit pinit = some (leafResult stp (rootItem N)) := by
    unfold buildBvh
    rw [hf]
    have hred : buildLoopF inp ((4 * N - 2) + 1) (initState inp N ninit pinit) [rootItem N]
        = buildLoopF inp (4 * N - 2) (leafResult stp (rootItem N)) [] := by
      simp only [buildLoopF]
      rw [hstep]
    rw [hred, buildLoopF_nil]
  refine ⟨hcb, hbin, ?_, ?_, ?_⟩
  · rw [hstep]
  · rw [hbvh]
    rfl
  · intro final hfin
    rw [hbvh] at hfin
    injection hfin with hfin2
    subst hfin2
    have hn0 : (leafResult stp (rootItem N)).nodes 0 = make_leaf (stp.nodes 0) 0 N :=
      leafResult_nodes_self stp (rootItem N)
    refine ⟨?_, ?_, ?_, ?_⟩
    · show stp.node_count = 1
      rw [hnc]
      rfl
    · rw [hn0]
      rfl
    · rw [hn0]
      rfl
    · rw [hn0]
      exact Nat.sub_zero N

set_option maxHeartbeats 1000000 in
/-- C2 counterexample: a non-degenerate root step (two primitives, depth 0)
where `build` makes a leaf even though the chosen boundary is not the sentinel
`bin_count` and the SAH comparison favors splitting: both primitives share one
centroid, so the whole range lands left of the boundary and the empty-side
guard, which the claim's dichotomy omits, rejects the split. -/
theorem claim_C2_counterexample :
    ¬ (itC2.work_size ≤ 1 ∨ inpC2.max_depth ≤ itC2.depth)
    ∧ (buildStep inpC2 stC2 itC2).2 = none
    ∧ (chosenPair inpC2 stC2.primitive_indices itC2).2 ≠ inpC2.bin_count
    ∧ (chosenPair inpC2 stC2.primitive_indices itC2).1
        < (stC2.nodes itC2.node_index).bbox.half_area
          * ((itC2.work_size : Scalar) - inpC2.traversal_cost) := by
  norm_num [buildStep, chosenPair, chosenAxis, splitOn, find_split, binsFor, binStep,
    rightCosts, rightStep, sweepStep, bestAxis, binIdxOf, centerBBoxOf, rangeList,
    beginRightOf, partPred, partList, partPrim, leafResult, partitionedState,
    BvhState.setNode, make_leaf, multiply_add, sizeT, scalarMax, BBox.empty0, BBox.extend,
    BBox.extendP, BBox.half_area, BBox.diagonal, Vec3.cmin, Vec3.cmax, Vec3.sub3, Vec3.get,
    Vec3.inv3, Vec3.smul3, Vec3.neg3, Vec3.mul3, List.range', List.range_succ,
    List.range_zero, List.foldl_append, WorkItem.work_size, inpC2, stC2, itC2, nodeC2]

/-- C9 counterexample: a build over zero primitives terminates with the root
made a leaf holding zero primitives, so "every leaf holds at least one
primitive" fails at `N = 0`. -/
theorem claim_C9_counterexample :
    buildBvh inpC2 0 ndefW pdefW
      = some (leafResult (initState inpC2 0 ndefW pdefW) (rootItem 0))
    ∧ ((leafResult (initState inpC2 0 ndefW pdefW) (rootItem 0)).nodes 0).is_leaf = true
    ∧ ((leafResult (initState inpC2 0 ndefW pdefW) (rootItem 0)).nodes 0).primitive_count
        = 0
    ∧ (leafResult (initState inpC2 0 ndefW pdefW) (rootItem 0)).node_count = 1 :=
  ⟨rfl, rfl, rfl, rfl⟩

/-- Witness for C1 at a concrete input with an in-range boundary below the
sentinel cost. -/
theorem claim_C1_witness :
    2 ≤ inpC2.bin_count
    ∧ (1 ≤ (find_split inpC2 (fun i => i) 0 0 0 (fun _ _ => 0)).2
        ∧ (find_split inpC2 (fun i => i) 0 0 0 (fun _ _ => 0)).2 < inpC2.bin_count) := by
  refine ⟨by decide, (claim_C1 inpC2 (fun i => i) 0 0 0 (fun _ _ => 0) (by decide)
    ⟨1, by decide, by decide, ?_⟩).1⟩
  norm_num [specSplitCost, binBoxUnion, binCountSum, binsFor, binStep, unionFold,
    List.range', BBox.extend, BBox.empty0, BBox.half_area, BBox.diagonal, Vec3.cmin,
    Vec3.cmax, Vec3.sub3, scalarMax, inpC2]

/-- Witness for C2 at the concrete two-primitive root item. -/
theorem claim_C2_witness :
    ¬ (itC2.work_size ≤ 1 ∨ inpC2.max_depth ≤ itC2.depth)
    ∧ chosenAxis inpC2 stC2.primitive_indices itC2 < 3 :=
  ⟨by decide, (claim_C2 inpC2 stC2 itC2 (by decide)).1.1⟩

set_option maxHeartbeats 1000000 in
/-- Witness for C3 at a concrete root step that splits two separated
primitives at boundary 1. -/
theorem claim_C3_witness :
    buildStep inpW3 stW3 itW3
      = ((buildStep inpW3 stW3 itW3).1, some (⟨1, 0, 1, 1⟩, ⟨2, 1, 2, 1⟩))
    ∧ (⟨1, 0, 1, 1⟩ : WorkItem) = ⟨stW3.node_count, itW3.begin_,
        beginRightOf inpW3 stW3.primitive_indices itW3, itW3.depth + 1⟩ := by
  have h2 : (buildStep inpW3 stW3 itW3).2 = some (⟨1, 0, 1, 1⟩, ⟨2, 1, 2, 1⟩) := by
    norm_num [buildStep, chosenPair, chosenAxis, splitOn, find_split, binsFor, binStep,
      rightCosts, rightStep, sweepStep, bestAxis, binIdxOf, centerBBoxOf, rangeList,
      beginRightOf, partPred, partList, partPrim, leafResult, partitionedState,
      BvhState.setNode, make_leaf, multiply_add, sizeT, scalarMax, BBox.empty0,
      BBox.extend, BBox.extendP, BBox.half_area, BBox.diagonal, Vec3.cmin, Vec3.cmax,
      Vec3.sub3, Vec3.get, Vec3.inv3, Vec3.smul3, Vec3.neg3, Vec3.mul3, List.range',
      List.range_succ, List.range_zero, List.foldl_append, WorkItem.work_size,
      inpW3, stW3, itW3]
  have h : buildStep inpW3 stW3 itW3
      = ((buildStep inpW3 stW3 itW3).1, some (⟨1, 0, 1, 1⟩, ⟨2, 1, 2, 1⟩)) := by
    calc buildStep inpW3 stW3 itW3
        = ((buildStep inpW3 stW3 itW3).1, (buildStep inpW3 stW3 itW3).2) := rfl
      _ = ((buildStep inpW3 stW3 itW3).1, some (⟨1, 0, 1, 1⟩, ⟨2, 1, 2, 1⟩)) := by
          rw [h2]
  exact ⟨h, (claim_C3 inpW3 stW3 itW3 _ _ _ h).1⟩

/-- Witness for C5 at a concrete two-primitive build. -/
theorem claim_C5_witness :
    1 ≤ inpC2.bin_count ∧ (buildBvh inpC2 2 ndefW pdefW).isSome = true :=
  ⟨by decide, (claim_C5 inpC2 2 ndefW pdefW (by decide)).1⟩

/-- Witness for C6 at the unit cube and its center on axis 0. -/
theorem claim_C6_witness :
    1 ≤ inpC2.bin_count
    ∧ ((BBox.mk ⟨0,0,0⟩ ⟨1,1,1⟩).min.get 0 ≤ (BBox.mk ⟨0,0,0⟩ ⟨1,1,1⟩).max.get 0)
    ∧ ((BBox.mk ⟨0,0,0⟩ ⟨1,1,1⟩).min.get 0 ≤ (Vec3.mk (1/2) (1/2) (1/2)).get 0)
    ∧ binIdxOf inpC2 (BBox.mk ⟨0,0,0⟩ ⟨1,1,1⟩) (Vec3.mk (1/2) (1/2) (1/2)) 0
        < inpC2.bin_count :=
  ⟨by decide, by norm_num [Vec3.get], by norm_num [Vec3.get],
    (claim_C6 inpC2 (BBox.mk ⟨0,0,0⟩ ⟨1,1,1⟩) (Vec3.mk (1/2) (1/2) (1/2)) 0
      (by decide) (by norm_num [Vec3.get]) (by norm_num [Vec3.get])).2.2.1⟩

/-- Witness for C8 at the concrete input with two identical primitives. -/
theorem claim_C8_witness :
    2 ≤ (2:ℕ) ∧ 2 ≤ inpC2.bin_count
    ∧ centerBBoxOf inpC2 (initState inpC2 2 ndefW pdefW).primitive_indices 0 2
        = BBox.mk ⟨1/2,1/2,1/2⟩ ⟨1/2,1/2,1/2⟩ := by
  refine ⟨by decide, by decide,
    (claim_C8 inpC2 2 ndefW pdefW (BBox.mk ⟨0,0,0⟩ ⟨1,1,1⟩) (Vec3.mk (1/2) (1/2) (1/2))
      (by decide) (by decide) (fun i _ => rfl) (fun i _ => rfl) ?_ ?_).1⟩
  · show contains (BBox.mk ⟨0,0,0⟩ ⟨1,1,1⟩) BBox.empty0
    norm_num [contains, Vec3.le3, BBox.empty0, scalarMax]
  · show contains (BBox.mk ⟨1/2,1/2,1/2⟩ ⟨1/2,1/2,1/2⟩) BBox.empty0
    norm_num [contains, Vec3.le3, BBox.empty0, scalarMax]

/-- Witness for C9 at a concrete two-primitive build. -/
theorem claim_C9_witness :
    1 ≤ inpC2.bin_count ∧ 1 ≤ (2:ℕ)
    ∧ (buildBvh inpC2 2 ndefW pdefW).isSome = true :=
  ⟨by decide, by decide, (claim_C9 inpC2 2 ndefW pdefW (by decide) (by decide)).2.1⟩

end BVH
